import Mathlib

/-! Graph flattening and deduplication (`internal/apihandler/utils.go`).

A shallow embedding of `flattenGraph`, `processNestedGraph` and `deduplicate`.

Modelling conventions:

* A Go pointer that may be nil is an `Option`; slices of pointers are lists of options.
* A nil-pointer dereference (a Go panic) is the result `none`; a normal return is `some _`.
* A Go `map[string]T` is an association list with unique keys (`GoMap`), written through
  `mapSet`.  Ranging over a Go map yields the entries in an unspecified order, so every
  function that ranges over a map takes a `MapOrder`: an arbitrary rearrangement of the
  values.  Theorems quantify over every `MapOrder`.
* `fmt.Sprintf("%s->%s", a, b)` is `a ++ "->" ++ b`.
-/

namespace Apihandler

/-! ## Data model (package `devmodel`, as used by the source) -/

/-- Go: `type NodeType string`. -/
abbrev NodeType := String

/-- Modelled from the spec: the constant `devmodel.NodeTypeOfStart` is declared outside the
source files at hand; its value is the type tag `start` used by the colour table of
`visualize.go`. Only its being different from `NodeTypeOfEnd` matters. -/
def NodeTypeOfStart : NodeType := "start"

/-- Modelled from the spec: the constant `devmodel.NodeTypeOfEnd` is declared outside the
source files at hand; its value is the type tag `end` used by the colour table of
`visualize.go`. -/
def NodeTypeOfEnd : NodeType := "end"

/-- Modelled from the spec: the declaration of `devmodel.Edge` is outside the source files
at hand. The source reads and writes `SourceNodeKey` and `TargetNodeKey`; `Name` stands for
the attributes of an edge other than its two endpoint keys, which a composite literal that
sets only the endpoints leaves empty. -/
structure Edge where
  SourceNodeKey : String
  TargetNodeKey : String
  Name : String
deriving DecidableEq, Repr

/-- Modelled from the spec: the declaration of `devmodel.ComponentSchema` is outside the
source files at hand; the source reads its field `Name`. -/
structure ComponentSchema where
  Name : String
deriving DecidableEq, Repr

mutual
/-- Modelled from the spec: the declaration of `devmodel.Node` is outside the source files
at hand; the fields are those the source reads. The field `Type` is called `Typ` here, and
the two pointer fields are options. -/
inductive Node where
  | mk (Key : String) (Name : String) (Typ : NodeType)
      (ComponentSchema : Option ComponentSchema) (GraphSchema : Option GraphSchema)
/-- Modelled from the spec: the declaration of `devmodel.GraphSchema` is outside the source
files at hand; the source reads its fields `Nodes` and `Edges`, slices of pointers. -/
inductive GraphSchema where
  | mk (Nodes : List (Option Node)) (Edges : List (Option Edge))
end

def Node.Key : Node → String
  | .mk k _ _ _ _ => k

def Node.Name : Node → String
  | .mk _ n _ _ _ => n

def Node.Typ : Node → NodeType
  | .mk _ _ t _ _ => t

def Node.ComponentSchema : Node → Option ComponentSchema
  | .mk _ _ _ c _ => c

def Node.GraphSchema : Node → Option GraphSchema
  | .mk _ _ _ _ g => g

def GraphSchema.Nodes : GraphSchema → List (Option Node)
  | .mk ns _ => ns

def GraphSchema.Edges : GraphSchema → List (Option Edge)
  | .mk _ es => es

/-! ## Go maps -/

/-- A Go `map[string]α`: an association list whose keys are pairwise different. -/
abbrev GoMap (α : Type) := List (String × α)

/-- Go: `m[k] = v`. An existing entry for `k` is overwritten, otherwise one is added. -/
def mapSet {α : Type} (m : GoMap α) (k : String) (v : α) : GoMap α :=
  match m with
  | [] => [(k, v)]
  | (k', v') :: rest => if k' = k then (k, v) :: rest else (k', v') :: mapSet rest k v

/-- The order in which `for _, v := range m` visits the values of a map: some rearrangement
of them, which Go leaves unspecified. -/
structure MapOrder where
  nodeOrder : List Node → List Node
  edgeOrder : List Edge → List Edge
  nodeOrder_perm : ∀ l, (nodeOrder l).Perm l
  edgeOrder_perm : ∀ l, (edgeOrder l).Perm l

/-- The iteration order that visits the entries in the order of their first insertion. -/
def MapOrder.insertion : MapOrder where
  nodeOrder := fun l => l
  edgeOrder := fun l => l
  nodeOrder_perm := fun l => List.Perm.refl l
  edgeOrder_perm := fun l => List.Perm.refl l

/-- The iteration order that visits the entries latest insertion first. -/
def MapOrder.reversed : MapOrder where
  nodeOrder := fun l => l.reverse
  edgeOrder := fun l => l.reverse
  nodeOrder_perm := fun l => List.reverse_perm l
  edgeOrder_perm := fun l => List.reverse_perm l

/-! ## `deduplicate` -/

/-- Go: `fmt.Sprintf("%s->%s", e.SourceNodeKey, e.TargetNodeKey)`. -/
def edgeKey (e : Edge) : String :=
  e.SourceNodeKey ++ "->" ++ e.TargetNodeKey

/-- Go: `for _, n := range nodes { nodeMap[n.Key] = n }`; a nil entry panics at `n.Key`. -/
def nodeLoop (nodeMap : GoMap Node) : List (Option Node) → Option (GoMap Node)
  | [] => some nodeMap
  | none :: _ => none
  | some n :: rest => nodeLoop (mapSet nodeMap n.Key n) rest

/-- Go: `for _, e := range edges { key := ...; edgeMap[key] = e }`; a nil entry panics. -/
def edgeLoop (edgeMap : GoMap Edge) : List (Option Edge) → Option (GoMap Edge)
  | [] => some edgeMap
  | none :: _ => none
  | some e :: rest => edgeLoop (mapSet edgeMap (edgeKey e) e) rest

/-- Go: `deduplicate`. The two maps are filled in turn, then their values are collected in
the order the map iteration yields them. -/
def deduplicate (o : MapOrder) (nodes : List (Option Node)) (edges : List (Option Edge)) :
    Option (List Node × List Edge) :=
  match nodeLoop [] nodes with
  | none => none
  | some nodeMap =>
    match edgeLoop [] edges with
    | none => none
    | some edgeMap =>
      some (o.nodeOrder (nodeMap.map Prod.snd), o.edgeOrder (edgeMap.map Prod.snd))

/-! ## `processNestedGraph` and `flattenGraph` -/

/-- Go: the scan `for _, n := range subGraph.Nodes { switch n.Type { ... } }` of
`processNestedGraph`, started with the current values of `startNode` and `endNode`.
A nil entry panics at `n.Type`. -/
def scanStartEnd (startNode endNode : Option Node) :
    List (Option Node) → Option (Option Node × Option Node)
  | [] => some (startNode, endNode)
  | none :: _ => none
  | some n :: rest =>
    if n.Typ = NodeTypeOfStart then scanStartEnd (some n) endNode rest
    else if n.Typ = NodeTypeOfEnd then scanStartEnd startNode (some n) rest
    else scanStartEnd startNode endNode rest

/-- Go: the first `if` of the rewiring loop body: an edge whose target is the parent's key
yields an edge to `startNode.Key`; a nil `startNode` panics there. -/
def rewireIn (parentKey : String) (startNode : Option Node) (e : Edge)
    (modifiedEdges : List Edge) : Option (List Edge) :=
  if e.TargetNodeKey = parentKey then
    match startNode with
    | none => none
    | some s => some (modifiedEdges ++ [Edge.mk e.SourceNodeKey s.Key ""])
  else some modifiedEdges

/-- Go: the second `if` of the rewiring loop body: an edge whose source is the parent's key
yields an edge from `endNode.Key`; a nil `endNode` panics there. -/
def rewireOut (parentKey : String) (endNode : Option Node) (e : Edge)
    (modifiedEdges : List Edge) : Option (List Edge) :=
  if e.SourceNodeKey = parentKey then
    match endNode with
    | none => none
    | some en => some (modifiedEdges ++ [Edge.mk en.Key e.TargetNodeKey ""])
  else some modifiedEdges

/-- Go: the loop `for _, e := range parentNode.GraphSchema.Edges { ... }` of
`processNestedGraph`, over the edge list of the nested graph. -/
def rewireLoop (parentKey : String) (startNode endNode : Option Node)
    (modifiedEdges : List Edge) : List (Option Edge) → Option (List Edge)
  | [] => some modifiedEdges
  | none :: _ => none
  | some e :: rest =>
    match rewireIn parentKey startNode e modifiedEdges with
    | none => none
    | some m1 =>
      match rewireOut parentKey endNode e m1 with
      | none => none
      | some m2 => rewireLoop parentKey startNode endNode m2 rest

mutual
/-- Go: `flattenGraph`. A nil graph yields two empty lists. -/
def flattenGraph (o : MapOrder) : Option GraphSchema → Option (List Node × List Edge)
  | none => some ([], [])
  | some (.mk nodes edges) =>
    match flattenLoop o [] [] nodes with
    | none => none
    | some (allNodes, allEdges) => deduplicate o allNodes (allEdges ++ edges)
/-- Go: the loop `for _, node := range graph.Nodes { ... }` of `flattenGraph`, with the
accumulators `allNodes` and `allEdges`. A nil entry panics at `node.GraphSchema`. -/
def flattenLoop (o : MapOrder) (allNodes : List (Option Node)) (allEdges : List (Option Edge)) :
    List (Option Node) → Option (List (Option Node) × List (Option Edge))
  | [] => some (allNodes, allEdges)
  | none :: _ => none
  | some node :: rest =>
    if node.GraphSchema.isSome then
      match processNestedGraph o node with
      | none => none
      | some (subNodes, subEdges) =>
        flattenLoop o (allNodes ++ subNodes) (allEdges ++ subEdges) rest
    else flattenLoop o (allNodes ++ [some node]) allEdges rest
/-- Go: `processNestedGraph`. The nested graph's `Start` and `End` nodes are looked up, the
nested graph is flattened, the nested graph's edges that touch the parent's key are
rewired, and the two looked-up nodes are appended to the flattened nodes. -/
def processNestedGraph (o : MapOrder) :
    Node → Option (List (Option Node) × List (Option Edge))
  | .mk _ _ _ _ none => none
  | .mk parentKey _ _ _ (some (.mk nodes edges)) =>
    match scanStartEnd none none nodes with
    | none => none
    | some (startNode, endNode) =>
      match flattenGraph o (some (.mk nodes edges)) with
      | none => none
      | some (subNodes, subEdges) =>
        match rewireLoop parentKey startNode endNode [] edges with
        | none => none
        | some modifiedEdges =>
          some (subNodes.map some ++ [startNode, endNode],
            subEdges.map some ++ modifiedEdges.map some)
end


/-! ## `DrawGraph` (`visualize.go`): the data handed to the template -/

/-- Go: the element type of `SimpleGraph.Nodes`. The field `Type` is called `Typ` here. -/
structure SimpleNode where
  Key : String
  Label : String
  Typ : String
deriving DecidableEq, Repr

/-- Go: the element type of `SimpleGraph.Edges`. -/
structure SimpleEdge where
  From : String
  To : String
deriving DecidableEq, Repr

/-- Go: `SimpleGraph`. -/
structure SimpleGraph where
  Nodes : List SimpleNode
  Edges : List SimpleEdge
deriving DecidableEq, Repr

/-- Go: the computation of `label` in the node loop of `DrawGraph`. The field
`ComponentSchema` is a pointer, so reading `node.ComponentSchema.Name` panics when it is
nil; that read happens only when `node.Name` is empty. -/
def nodeLabel (node : Node) : Option String :=
  if node.Name = "" then
    match node.ComponentSchema with
    | none => none
    | some c => if c.Name ≠ "" then some c.Name else some node.Key
  else some node.Name

/-- Go: the loop `for _, node := range allNodes { ... }` of `DrawGraph`, appending one entry
per node to `tplData.Nodes`. -/
def drawNodes (tplNodes : List SimpleNode) : List Node → Option (List SimpleNode)
  | [] => some tplNodes
  | node :: rest =>
    match nodeLabel node with
    | none => none
    | some label => drawNodes (tplNodes ++ [SimpleNode.mk node.Key label node.Typ]) rest

/-- Go: the loop `for _, edge := range allEdges { ... }` of `DrawGraph`, appending one entry
per edge to `tplData.Edges`. -/
def drawEdges (tplEdges : List SimpleEdge) : List Edge → List SimpleEdge
  | [] => tplEdges
  | edge :: rest =>
    drawEdges (tplEdges ++ [SimpleEdge.mk edge.SourceNodeKey edge.TargetNodeKey]) rest

/-- Go: the part of `DrawGraph` between the lookup of the canvas and the rendering of the
template: the graph schema of the canvas is flattened and `tplData` is filled from the
flattened nodes and edges. -/
def drawGraphData (o : MapOrder) (graphSchema : Option GraphSchema) : Option SimpleGraph :=
  match flattenGraph o graphSchema with
  | none => none
  | some (allNodes, allEdges) =>
    match drawNodes [] allNodes with
    | none => none
    | some tplNodes => some (SimpleGraph.mk tplNodes (drawEdges [] allEdges))

/-! ## What the caller of `flattenGraph` observes -/

/-- The ways in which a call can end without a result. The three functions of `utils.go`
have no error result and raise no panic of their own; the only way they fail is the
run-time panic of a nil-pointer dereference (every `none` of the functions above). A
`malformedGraph` report, which the specification asks for, is produced nowhere. -/
inductive Failure where
  | nilDereference
  | malformedGraph
deriving DecidableEq, Repr

/-- What the caller of `flattenGraph` observes: the two returned lists, or the failure that
unwinds into the caller. -/
def flattenGraphOutcome (o : MapOrder) (graph : Option GraphSchema) :
    Except Failure (List Node × List Edge) :=
  match flattenGraph o graph with
  | some r => Except.ok r
  | none => Except.error Failure.nilDereference


/-! ## Specification-side vocabulary -/

/-- The map obtained from `m` by the assignments `m[key a] = a` for `a` in `l`, in order. -/
def fill {α : Type} (key : α → String) (m : GoMap α) (l : List α) : GoMap α :=
  l.foldl (fun m a => mapSet m (key a) a) m

/-- The values of the map filled from `l`, in the order of first insertion. -/
def dedupVals {α : Type} (key : α → String) (l : List α) : List α :=
  (fill key [] l).map Prod.snd

/-- The entry `x` is the last element of `l` that carries its key. -/
def LastWins {α : Type} (key : α → String) : List α → α → Prop
  | [], _ => False
  | a :: l, x => LastWins key l x ∨ (x = a ∧ ∀ y ∈ l, key y ≠ key x)

mutual
/-- The nodes that occur in a graph at any nesting depth: its own nodes and, recursively,
the nodes of every nested graph. -/
def nodesDeep : Option GraphSchema → List Node
  | none => []
  | some (.mk nodes _) => nodesDeepList nodes
/-- The nodes that occur, at any depth, in or below the entries of a node list. -/
def nodesDeepList : List (Option Node) → List Node
  | [] => []
  | none :: rest => nodesDeepList rest
  | some n :: rest => n :: (nodesDeepNode n ++ nodesDeepList rest)
/-- The nodes that occur, at any depth, in the nested graph of a node. -/
def nodesDeepNode : Node → List Node
  | .mk _ _ _ _ gs => nodesDeep gs
end

/-- Two outcomes agree up to the order of the returned lists: both are a panic, or both are
results whose node lists and edge lists are rearrangements of each other. -/
def SameSets : Option (List Node × List Edge) → Option (List Node × List Edge) → Prop
  | some (ns, es), some (ns', es') => ns.Perm ns' ∧ es.Perm es'
  | none, none => True
  | _, _ => False

/-- The key of a list entry that may be nil: the key of the value, the empty string for
nil. -/
def optKey {α : Type} (key : α → String) : Option α → String
  | none => ""
  | some a => key a

/-- Two lists hold the same entries and give every key the same last entry. -/
def Agree {α : Type} (key : α → String) (A A' : List α) : Prop :=
  (∀ x, x ∈ A ↔ x ∈ A') ∧ (∀ x, LastWins key A x ↔ LastWins key A' x)

/-! ## Concrete graphs -/

/-- A leaf node with key `A`. -/
def nodeA : Node := .mk "A" "" "Lambda" none none

/-- A leaf node with key `B`. -/
def nodeB : Node := .mk "B" "" "Lambda" none none

/-- A leaf node of type `Start` with key `S`. -/
def nodeS : Node := .mk "S" "" NodeTypeOfStart none none

/-- A leaf node with key `L`. -/
def nodeL : Node := .mk "L" "" "Lambda" none none

/-- A leaf node of type `End` with key `E`. -/
def nodeE : Node := .mk "E" "" NodeTypeOfEnd none none

/-- A graph of two leaves `A`, `B` and the edge `A -> B`. -/
def flatGraph : GraphSchema :=
  .mk [some nodeA, some nodeB] [some (Edge.mk "A" "B" "")]

/-- A leaf with key `L` inside a nested graph. -/
def shadowInner : Node := .mk "L" "inner" "Lambda" none none

/-- A leaf with the same key `L` at the top level. -/
def shadowOuter : Node := .mk "L" "outer" "Lambda" none none

/-- A graph in which every graph scope has unique keys, while the key `L` occurs both at the
top level and inside the nested graph of the composite node `C`. -/
def shadowGraph : GraphSchema :=
  .mk [some (.mk "C" "" "Graph" none
          (some (.mk [some nodeS, some shadowInner, some nodeE]
            [some (Edge.mk "S" "L" ""), some (Edge.mk "L" "E" "")]))),
       some shadowOuter]
    []

/-- The nested graph of the substitution scenario: `Start S`, leaf `L`, `End E`, with the
edges `S -> L` and `L -> E`. -/
def scenarioNested : GraphSchema :=
  .mk [some nodeS, some nodeL, some nodeE]
    [some (Edge.mk "S" "L" ""), some (Edge.mk "L" "E" "")]

/-- The composite node `C` of the substitution scenario. -/
def nodeC : Node := .mk "C" "" "Graph" none (some scenarioNested)

/-- The graph of the substitution scenario: top-level nodes `A`, `C` (composite), `B` and
top-level edges `A -> C` and `C -> B`. -/
def scenarioGraph : GraphSchema :=
  .mk [some nodeA, some nodeC, some nodeB]
    [some (Edge.mk "A" "C" ""), some (Edge.mk "C" "B" "")]

/-- A node of type `Start` that itself carries a nested graph (`Start S2`, `End E2`). -/
def compositeStart : Node :=
  .mk "S" "" NodeTypeOfStart none
    (some (.mk [some (.mk "S2" "" NodeTypeOfStart none none),
                some (.mk "E2" "" NodeTypeOfEnd none none)]
      [some (Edge.mk "S2" "E2" "")]))

/-- A graph whose composite node `C` has a nested graph with the composite `Start` node
`compositeStart` and the `End` leaf `E`. -/
def compositeStartGraph : GraphSchema :=
  .mk [some (.mk "C" "" "Graph" none
          (some (.mk [some compositeStart, some nodeE] [some (Edge.mk "S" "E" "")])))]
    []

/-- The number of non-nil entries of a node list that have the given type. -/
def countType (t : NodeType) : List (Option Node) → Nat
  | [] => 0
  | none :: rest => countType t rest
  | some n :: rest => (if n.Typ = t then 1 else 0) + countType t rest

/-- Every edge of the edge list refers to keys of nodes of the node list. -/
def ScopeClosed (nodes : List (Option Node)) (edges : List (Option Edge)) : Prop :=
  ∀ e, some e ∈ edges →
    (∃ n, some n ∈ nodes ∧ n.Key = e.SourceNodeKey) ∧
    (∃ n, some n ∈ nodes ∧ n.Key = e.TargetNodeKey)

mutual
/-- A nested graph is well formed: exactly one `Start` node, exactly one `End` node, edges
that refer to its own nodes, and well-formed nested graphs below. -/
def WellFormedNested : Option GraphSchema → Prop
  | none => True
  | some (.mk nodes edges) =>
    countType NodeTypeOfStart nodes = 1 ∧ countType NodeTypeOfEnd nodes = 1 ∧
      ScopeClosed nodes edges ∧ WellFormedNodes nodes
/-- Every nested graph below the entries of a node list is well formed. -/
def WellFormedNodes : List (Option Node) → Prop
  | [] => True
  | none :: rest => WellFormedNodes rest
  | some n :: rest => WellFormedNode n ∧ WellFormedNodes rest
/-- The nested graph of a node, if any, is well formed. -/
def WellFormedNode : Node → Prop
  | .mk _ _ _ _ gs => WellFormedNested gs
end

/-- A graph is well formed: its edges refer to its own nodes, and every nested graph at
every depth has exactly one `Start` node, exactly one `End` node and edges that refer to
its own nodes. -/
def WellFormed (G : GraphSchema) : Prop :=
  ScopeClosed G.Nodes G.Edges ∧ WellFormedNodes G.Nodes

/-- The display label as the specification words it: the name when it is non-empty,
otherwise the derived name when that is non-empty, otherwise the raw key. -/
def fallbackLabel (name derived key : String) : String :=
  if name ≠ "" then name else if derived ≠ "" then derived else key

/-- The derived (component-schema) name of a node; empty when the node has no component
schema. -/
def derivedName (node : Node) : String :=
  match node.ComponentSchema with
  | none => ""
  | some c => c.Name

/-- A node with an empty name whose label comes from its component schema. -/
def labelFromComponent : Node := .mk "k1" "" "Lambda" (some (ComponentSchema.mk "ChatModel")) none

/-- A node with an empty name and an empty component-schema name. -/
def labelFromKey : Node := .mk "k2" "" "Lambda" (some (ComponentSchema.mk "")) none

/-- A node with a name. -/
def labelFromName : Node := .mk "k3" "named" "Lambda" none none

/-- A graph of the three nodes above. -/
def labelGraph : GraphSchema :=
  .mk [some labelFromComponent, some labelFromKey, some labelFromName] []


/-- The last non-nil entry of a node list that has the given type, if any. -/
def lastOfType (t : NodeType) : List (Option Node) → Option Node
  | [] => none
  | none :: rest => lastOfType t rest
  | some n :: rest =>
    match lastOfType t rest with
    | some m => some m
    | none => if n.Typ = t then some n else none

/-- The first non-nil entry of a node list that has the given type, if any. -/
def firstOfType (t : NodeType) : List (Option Node) → Option Node
  | [] => none
  | none :: rest => firstOfType t rest
  | some n :: rest => if n.Typ = t then some n else firstOfType t rest

/-- The first of two `Start` nodes. -/
def twoStartFirst : Node := .mk "S1" "first" NodeTypeOfStart none none

/-- The second of two `Start` nodes. -/
def twoStartSecond : Node := .mk "S2" "second" NodeTypeOfStart none none

/-- A composite node `C` whose nested graph has two `Start` nodes, `S1` before `S2`, one
`End` node `E`, and an edge `S1 -> C` that names the composite itself. -/
def twoStartNode : Node :=
  .mk "C" "" "Graph" none
    (some (.mk [some twoStartFirst, some twoStartSecond, some nodeE]
      [some (Edge.mk "S1" "C" "")]))


/-- The scan of `processNestedGraph` finds both a `Start` and an `End` node in the nested
graph of the node (nothing is asked of a node without nested graph). -/
def StartEndFound (n : Node) : Prop :=
  ∀ nodes edges, n.GraphSchema = some (.mk nodes edges) →
    ∃ s e, scanStartEnd none none nodes = some (some s, some e)

/-- A composite node `C` whose nested graph has a leaf `L` and an `End` node `E` but no
`Start` node. -/
def missingStartNode : Node :=
  .mk "C" "" "Graph" none (some (.mk [some nodeL, some nodeE] [some (Edge.mk "L" "E" "")]))

/-- A graph whose only node is `missingStartNode`. -/
def missingStartGraph : GraphSchema := .mk [some missingStartNode] []


mutual
/-- A nested graph is safe: at least one node of type `Start`, at least one of type `End`,
no nil entry among its edges, and safe node entries. -/
def SafeNested : Option GraphSchema → Prop
  | none => True
  | some (.mk nodes edges) =>
    0 < countType NodeTypeOfStart nodes ∧ 0 < countType NodeTypeOfEnd nodes ∧
      none ∉ edges ∧ SafeNodes nodes
/-- No entry of the node list is nil, and the nested graph of every entry is safe. -/
def SafeNodes : List (Option Node) → Prop
  | [] => True
  | none :: _ => False
  | some n :: rest => SafeNode n ∧ SafeNodes rest
/-- The nested graph of the node, if any, is safe. -/
def SafeNode : Node → Prop
  | .mk _ _ _ _ gs => SafeNested gs
end

/-- All node and edge entries of the graph, at every depth, are non-nil, and every nested
graph, at every depth, has at least one node of type `Start` and at least one of type
`End`. -/
def SafeGraph (G : GraphSchema) : Prop :=
  none ∉ G.Edges ∧ SafeNodes G.Nodes


/-- No edge of the node's nested graph has the node's own key as source or as target
(nothing is asked of a node without nested graph). -/
def NoSelfEdge (n : Node) : Prop :=
  ∀ nodes edges, n.GraphSchema = some (.mk nodes edges) →
    ∀ e, some e ∈ edges → e.SourceNodeKey ≠ n.Key ∧ e.TargetNodeKey ≠ n.Key

/-- The edge is an entry of the edge list of the nested graph of the node. -/
def NestedEdge (n : Node) (e : Edge) : Prop :=
  ∃ nodes edges, n.GraphSchema = some (.mk nodes edges) ∧ some e ∈ edges


mutual
/-- The nodes that `flattenGraph` collects for a graph, in the order in which they are
appended, before any deduplication: the collected nodes of each entry of the node list, in
node order. -/
def collected : Option GraphSchema → List Node
  | none => []
  | some (.mk nodes _) => collectedList nodes
/-- The nodes collected for the entries of a node list, in node order. -/
def collectedList : List (Option Node) → List Node
  | [] => []
  | none :: rest => collectedList rest
  | some n :: rest => collectedNode n ++ collectedList rest
/-- The nodes collected for one node: a leaf is collected itself; a composite node
contributes the nodes collected for its nested graph, followed by the `Start` node and the
`End` node that the scan selects. -/
def collectedNode : Node → List Node
  | .mk k nm t c none => [.mk k nm t c none]
  | .mk _ _ _ _ (some (.mk nodes _)) =>
    collectedList nodes ++ (lastOfType NodeTypeOfStart nodes).toList ++
      (lastOfType NodeTypeOfEnd nodes).toList
end

/-- Two lists carry the same keys and give every key the same last entry. -/
def SameLast {α : Type} (key : α → String) (A C : List α) : Prop :=
  (∀ k, k ∈ A.map key ↔ k ∈ C.map key) ∧ (∀ x, LastWins key A x ↔ LastWins key C x)


/-! ## Lemmas on Go maps -/

section GoMapLemmas

variable {α : Type}

theorem mapSet_keys (m : GoMap α) (k : String) (v : α) (k' : String) :
    k' ∈ (mapSet m k v).map Prod.fst ↔ k' = k ∨ k' ∈ m.map Prod.fst := by
  induction m with
  | nil => simp [mapSet]
  | cons p rest ih =>
    obtain ⟨k0, v0⟩ := p
    by_cases h : k0 = k
    · subst h
      simp only [mapSet, if_true, List.map_cons, List.mem_cons]
      tauto
    · simp only [mapSet, if_neg h, List.map_cons, List.mem_cons, ih]
      tauto

theorem mapSet_nodup (m : GoMap α) (k : String) (v : α) (h : (m.map Prod.fst).Nodup) :
    ((mapSet m k v).map Prod.fst).Nodup := by
  induction m with
  | nil => simp [mapSet]
  | cons p rest ih =>
    obtain ⟨k0, v0⟩ := p
    simp only [List.map_cons, List.nodup_cons] at h
    by_cases hk : k0 = k
    · subst hk
      simpa [mapSet] using h
    · simp only [mapSet, if_neg hk, List.map_cons, List.nodup_cons, mapSet_keys]
      exact ⟨fun hc => hc.elim hk h.1, ih h.2⟩

theorem mem_mapSet (m : GoMap α) (k : String) (v : α) (h : (m.map Prod.fst).Nodup)
    (p : String × α) :
    p ∈ mapSet m k v ↔ p = (k, v) ∨ (p ∈ m ∧ p.1 ≠ k) := by
  induction m with
  | nil => simp [mapSet]
  | cons q rest ih =>
    obtain ⟨k0, v0⟩ := q
    simp only [List.map_cons, List.nodup_cons] at h
    by_cases hk : k0 = k
    · subst hk
      simp only [mapSet, if_true, List.mem_cons]
      constructor
      · rintro (h1 | h1)
        · exact Or.inl h1
        · refine Or.inr ⟨Or.inr h1, fun hc => h.1 ?_⟩
          exact List.mem_map.2 ⟨p, h1, hc⟩
      · rintro (h1 | ⟨h1 | h1, h2⟩)
        · exact Or.inl h1
        · exact absurd (by rw [h1]) h2
        · exact Or.inr h1
    · simp only [mapSet, if_neg hk, List.mem_cons, ih h.2]
      constructor
      · rintro (h1 | h1 | ⟨h1, h2⟩)
        · exact Or.inr ⟨Or.inl h1, by rw [h1]; exact hk⟩
        · exact Or.inl h1
        · exact Or.inr ⟨Or.inr h1, h2⟩
      · rintro (h1 | ⟨h1 | h1, h2⟩)
        · exact Or.inr (Or.inl h1)
        · exact Or.inl h1
        · exact Or.inr (Or.inr ⟨h1, h2⟩)

theorem mapSet_of_not_mem (m : GoMap α) (k : String) (v : α) (h : k ∉ m.map Prod.fst) :
    mapSet m k v = m ++ [(k, v)] := by
  induction m with
  | nil => rfl
  | cons q rest ih =>
    obtain ⟨k0, v0⟩ := q
    simp only [List.map_cons, List.mem_cons, not_or] at h
    have hk : ¬ k0 = k := fun hc => h.1 hc.symm
    simp [mapSet, hk, ih h.2]


theorem vals_mapSet (key : α → String) (m : GoMap α) (a : α)
    (hn : (m.map Prod.fst).Nodup) (hk : ∀ p ∈ m, p.1 = key p.2) (x : α) :
    x ∈ (mapSet m (key a) a).map Prod.snd ↔ x = a ∨ (x ∈ m.map Prod.snd ∧ key x ≠ key a) := by
  simp only [List.mem_map, mem_mapSet m (key a) a hn]
  constructor
  · rintro ⟨p, hp | ⟨hp, hne⟩, rfl⟩
    · left; rw [hp]
    · right; exact ⟨⟨p, hp, rfl⟩, by rw [← hk p hp]; exact hne⟩
  · rintro (rfl | ⟨⟨p, hp, rfl⟩, hne⟩)
    · exact ⟨(key x, x), Or.inl rfl, rfl⟩
    · exact ⟨p, Or.inr ⟨hp, by rw [hk p hp]; exact hne⟩, rfl⟩

theorem mapSet_keyed (key : α → String) (m : GoMap α) (a : α)
    (hn : (m.map Prod.fst).Nodup) (hk : ∀ p ∈ m, p.1 = key p.2) :
    ∀ p ∈ mapSet m (key a) a, p.1 = key p.2 := by
  intro p hp
  rcases (mem_mapSet m (key a) a hn p).1 hp with h | ⟨h, _⟩
  · rw [h]
  · exact hk p h

theorem fill_cons (key : α → String) (m : GoMap α) (a : α) (l : List α) :
    fill key m (a :: l) = fill key (mapSet m (key a) a) l := rfl

theorem fill_nodup (key : α → String) (l : List α) :
    ∀ m : GoMap α, (m.map Prod.fst).Nodup → ((fill key m l).map Prod.fst).Nodup := by
  induction l with
  | nil => intro m h; exact h
  | cons a l ih => intro m h; exact ih _ (mapSet_nodup m (key a) a h)

theorem fill_keyed (key : α → String) (l : List α) :
    ∀ m : GoMap α, (m.map Prod.fst).Nodup → (∀ p ∈ m, p.1 = key p.2) →
      ∀ p ∈ fill key m l, p.1 = key p.2 := by
  induction l with
  | nil => intro m _ h; exact h
  | cons a l ih =>
    intro m hn hk
    exact ih _ (mapSet_nodup m (key a) a hn) (mapSet_keyed key m a hn hk)

theorem mem_fill_vals (key : α → String) (l : List α) (x : α) :
    ∀ m : GoMap α, (m.map Prod.fst).Nodup → (∀ p ∈ m, p.1 = key p.2) →
      (x ∈ (fill key m l).map Prod.snd ↔
        LastWins key l x ∨ (x ∈ m.map Prod.snd ∧ ∀ y ∈ l, key y ≠ key x)) := by
  induction l with
  | nil => intro m _ _; simp [fill, LastWins]
  | cons a l ih =>
    intro m hn hk
    rw [fill_cons, ih _ (mapSet_nodup m (key a) a hn) (mapSet_keyed key m a hn hk),
      vals_mapSet key m a hn hk]
    simp only [LastWins, List.forall_mem_cons]
    constructor
    · rintro (h | ⟨h | ⟨h1, h2⟩, h3⟩)
      · exact Or.inl (Or.inl h)
      · exact Or.inl (Or.inr ⟨h, h3⟩)
      · exact Or.inr ⟨h1, fun hc => h2 hc.symm, h3⟩
    · rintro ((h | ⟨h, h3⟩) | ⟨h1, h2, h3⟩)
      · exact Or.inl h
      · exact Or.inr ⟨Or.inl h, h3⟩
      · exact Or.inr ⟨Or.inr ⟨h1, fun hc => h2 hc.symm⟩, h3⟩

theorem fill_of_nodup (key : α → String) (l : List α) :
    ∀ m : GoMap α, (m.map Prod.fst ++ l.map key).Nodup →
      fill key m l = m ++ l.map (fun a => (key a, a)) := by
  induction l with
  | nil => intro m _; simp [fill]
  | cons a l ih =>
    intro m h
    have h1 : key a ∉ m.map Prod.fst := by
      intro hc
      have := (List.nodup_append.1 h).2.2 hc
      exact this (by simp)
    rw [fill_cons, mapSet_of_not_mem m (key a) a h1, ih]
    · simp
    · simpa using h


theorem lastWins_mem (key : α → String) (l : List α) (x : α) (h : LastWins key l x) : x ∈ l := by
  induction l with
  | nil => exact h.elim
  | cons a l ih =>
    rcases h with h | ⟨h, _⟩
    · exact List.mem_cons_of_mem _ (ih h)
    · rw [h]; exact List.mem_cons_self _ _

theorem lastWins_iff (key : α → String) (l : List α) (x : α) :
    LastWins key l x ↔ ∃ l1 l2, l = l1 ++ x :: l2 ∧ ∀ y ∈ l2, key y ≠ key x := by
  induction l with
  | nil => simp [LastWins]
  | cons a l ih =>
    simp only [LastWins, ih]
    constructor
    · rintro (⟨l1, l2, rfl, h⟩ | ⟨rfl, h⟩)
      · exact ⟨a :: l1, l2, rfl, h⟩
      · exact ⟨[], l, rfl, h⟩
    · rintro ⟨l1, l2, h, h'⟩
      cases l1 with
      | nil =>
        simp only [List.nil_append, List.cons.injEq] at h
        obtain ⟨rfl, rfl⟩ := h
        exact Or.inr ⟨rfl, h'⟩
      | cons b l1 =>
        simp only [List.cons_append, List.cons.injEq] at h
        exact Or.inl ⟨l1, l2, h.2, h'⟩

theorem lastWins_exists (key : α → String) (l : List α) (y : α) (h : y ∈ l) :
    ∃ x, LastWins key l x ∧ key x = key y := by
  induction l generalizing y with
  | nil => simp at h
  | cons a l ih =>
    by_cases hex : ∃ z ∈ l, key z = key y
    · obtain ⟨z, hz, hzy⟩ := hex
      obtain ⟨x, hx, hxz⟩ := ih z hz
      exact ⟨x, Or.inl hx, hxz.trans hzy⟩
    · rcases List.mem_cons.1 h with rfl | h
      · exact ⟨y, Or.inr ⟨rfl, fun z hz hc => hex ⟨z, hz, hc⟩⟩, rfl⟩
      · exact absurd ⟨y, h, rfl⟩ hex

theorem lastWins_append (key : α → String) (l1 l2 : List α) (x : α) :
    LastWins key (l1 ++ l2) x ↔
      LastWins key l2 x ∨ (LastWins key l1 x ∧ ∀ y ∈ l2, key y ≠ key x) := by
  induction l1 with
  | nil => simp [LastWins]
  | cons a l1 ih =>
    change (LastWins key (l1 ++ l2) x ∨ (x = a ∧ ∀ y ∈ l1 ++ l2, key y ≠ key x)) ↔
      LastWins key l2 x ∨
        ((LastWins key l1 x ∨ (x = a ∧ ∀ y ∈ l1, key y ≠ key x)) ∧ ∀ y ∈ l2, key y ≠ key x)
    rw [ih]
    simp only [List.mem_append]
    constructor
    · rintro ((h | ⟨h1, h2⟩) | ⟨h1, h2⟩)
      · exact Or.inl h
      · exact Or.inr ⟨Or.inl h1, h2⟩
      · exact Or.inr ⟨Or.inr ⟨h1, fun y hy => h2 y (Or.inl hy)⟩, fun y hy => h2 y (Or.inr hy)⟩
    · rintro (h | ⟨h1 | ⟨h1, h3⟩, h2⟩)
      · exact Or.inl (Or.inl h)
      · exact Or.inl (Or.inr ⟨h1, h2⟩)
      · exact Or.inr ⟨h1, fun y hy => hy.elim (h3 y) (h2 y)⟩

theorem lastWins_of_nodup (key : α → String) (l : List α) (h : (l.map key).Nodup) (x : α) :
    LastWins key l x ↔ x ∈ l := by
  refine ⟨lastWins_mem key l x, fun hx => ?_⟩
  induction l with
  | nil => simp at hx
  | cons a l ih =>
    simp only [List.map_cons, List.nodup_cons] at h
    rcases List.mem_cons.1 hx with rfl | hx
    · exact Or.inr ⟨rfl, fun y hy hc => h.1 (hc ▸ List.mem_map_of_mem key hy)⟩
    · exact Or.inl (ih h.2 hx)

theorem dedupVals_eq_map_fst (key : α → String) (l : List α) :
    (dedupVals key l).map key = (fill key [] l).map Prod.fst := by
  have hk := fill_keyed key l [] List.nodup_nil (by simp)
  simp only [dedupVals, List.map_map]
  exact List.map_congr_left (fun p hp => (hk p hp).symm)

theorem dedupVals_nodup (key : α → String) (l : List α) :
    ((dedupVals key l).map key).Nodup := by
  rw [dedupVals_eq_map_fst]
  exact fill_nodup key l [] List.nodup_nil

theorem mem_dedupVals (key : α → String) (l : List α) (x : α) :
    x ∈ dedupVals key l ↔ LastWins key l x := by
  simp [dedupVals, mem_fill_vals key l x [] List.nodup_nil (by simp)]

theorem dedupVals_subset (key : α → String) (l : List α) (x : α) (h : x ∈ dedupVals key l) :
    x ∈ l :=
  lastWins_mem key l x ((mem_dedupVals key l x).1 h)

theorem dedupVals_keys (key : α → String) (l : List α) (k : String) :
    k ∈ (dedupVals key l).map key ↔ k ∈ l.map key := by
  simp only [List.mem_map]
  constructor
  · rintro ⟨x, hx, rfl⟩
    exact ⟨x, dedupVals_subset key l x hx, rfl⟩
  · rintro ⟨y, hy, rfl⟩
    obtain ⟨x, hx, hxy⟩ := lastWins_exists key l y hy
    exact ⟨x, (mem_dedupVals key l x).2 hx, hxy⟩

theorem dedupVals_of_nodup (key : α → String) (l : List α) (h : (l.map key).Nodup) :
    dedupVals key l = l := by
  have := fill_of_nodup key l [] (by simpa using h)
  simp [dedupVals, this, List.map_map, Function.comp_def]

end GoMapLemmas

/-! ## Lemmas on `deduplicate` -/

theorem MapOrder.mem_nodeOrder (o : MapOrder) (l : List Node) (n : Node) :
    n ∈ o.nodeOrder l ↔ n ∈ l :=
  (o.nodeOrder_perm l).mem_iff

theorem MapOrder.mem_edgeOrder (o : MapOrder) (l : List Edge) (e : Edge) :
    e ∈ o.edgeOrder l ↔ e ∈ l :=
  (o.edgeOrder_perm l).mem_iff

theorem MapOrder.nodeOrder_nil (o : MapOrder) : o.nodeOrder [] = [] :=
  List.perm_nil.1 (o.nodeOrder_perm [])

theorem MapOrder.edgeOrder_nil (o : MapOrder) : o.edgeOrder [] = [] :=
  List.perm_nil.1 (o.edgeOrder_perm [])

theorem MapOrder.edgeOrder_singleton (o : MapOrder) (e : Edge) : o.edgeOrder [e] = [e] :=
  List.perm_singleton.1 (o.edgeOrder_perm [e])

theorem MapOrder.nodeOrder_singleton (o : MapOrder) (n : Node) : o.nodeOrder [n] = [n] :=
  List.perm_singleton.1 (o.nodeOrder_perm [n])

theorem nodeLoop_map_some (l : List Node) :
    ∀ m : GoMap Node, nodeLoop m (l.map some) = some (fill Node.Key m l) := by
  induction l with
  | nil => intro m; rfl
  | cons a l ih => intro m; exact ih _

theorem edgeLoop_map_some (l : List Edge) :
    ∀ m : GoMap Edge, edgeLoop m (l.map some) = some (fill edgeKey m l) := by
  induction l with
  | nil => intro m; rfl
  | cons a l ih => intro m; exact ih _

theorem nodeLoop_eq_some (l : List (Option Node)) :
    ∀ m m' : GoMap Node, nodeLoop m l = some m' →
      ∃ l' : List Node, l = l'.map some ∧ m' = fill Node.Key m l' := by
  induction l with
  | nil =>
    intro m m' h
    exact ⟨[], rfl, (Option.some.inj h).symm⟩
  | cons a l ih =>
    intro m m' h
    cases a with
    | none => exact absurd h (by simp [nodeLoop])
    | some n =>
      obtain ⟨l', rfl, rfl⟩ := ih _ _ h
      exact ⟨n :: l', rfl, rfl⟩

theorem edgeLoop_eq_some (l : List (Option Edge)) :
    ∀ m m' : GoMap Edge, edgeLoop m l = some m' →
      ∃ l' : List Edge, l = l'.map some ∧ m' = fill edgeKey m l' := by
  induction l with
  | nil =>
    intro m m' h
    exact ⟨[], rfl, (Option.some.inj h).symm⟩
  | cons a l ih =>
    intro m m' h
    cases a with
    | none => exact absurd h (by simp [edgeLoop])
    | some e =>
      obtain ⟨l', rfl, rfl⟩ := ih _ _ h
      exact ⟨e :: l', rfl, rfl⟩

theorem nodeLoop_none (l : List (Option Node)) (h : none ∈ l) :
    ∀ m : GoMap Node, nodeLoop m l = none := by
  induction l with
  | nil => simp at h
  | cons a l ih =>
    intro m
    cases a with
    | none => rfl
    | some n =>
      have h' : none ∈ l := by simpa using h
      exact ih h' _

theorem deduplicate_map_some (o : MapOrder) (nodes : List Node) (edges : List Edge) :
    deduplicate o (nodes.map some) (edges.map some) =
      some (o.nodeOrder (dedupVals Node.Key nodes), o.edgeOrder (dedupVals edgeKey edges)) := by
  simp [deduplicate, nodeLoop_map_some, edgeLoop_map_some, dedupVals]

theorem deduplicate_eq_some (o : MapOrder) (a : List (Option Node)) (b : List (Option Edge))
    (ns : List Node) (es : List Edge) (h : deduplicate o a b = some (ns, es)) :
    ∃ (a' : List Node) (b' : List Edge), a = a'.map some ∧ b = b'.map some ∧
      ns = o.nodeOrder (dedupVals Node.Key a') ∧ es = o.edgeOrder (dedupVals edgeKey b') := by
  unfold deduplicate at h
  cases hn : nodeLoop [] a with
  | none => simp [hn] at h
  | some nodeMap =>
    cases he : edgeLoop [] b with
    | none => simp [hn, he] at h
    | some edgeMap =>
      simp only [hn, he, Option.some.injEq, Prod.mk.injEq] at h
      obtain ⟨a', ha, hm⟩ := nodeLoop_eq_some a [] nodeMap hn
      obtain ⟨b', hb, hm'⟩ := edgeLoop_eq_some b [] edgeMap he
      refine ⟨a', b', ha, hb, ?_, ?_⟩
      · rw [← h.1, hm]; rfl
      · rw [← h.2, hm']; rfl

/-! ## `deduplicate`: the claims -/

/-- C7. Node deduplication is last-write-wins per key: on every list of nodes `deduplicate`
returns; every key of the input is the key of exactly one returned node; every returned
node carries a key of the input; and a node is returned exactly when it is the last node of
the input with its key (the input splits as `l1 ++ n :: l2` with no node of `l2` carrying
the key of `n`). This holds for every map iteration order. -/
theorem deduplicate_nodes_last_write_wins (o : MapOrder) (nodes : List Node)
    (edges : List Edge) :
    ∃ ns es, deduplicate o (nodes.map some) (edges.map some) = some (ns, es) ∧
      (∀ k ∈ nodes.map Node.Key, (ns.map Node.Key).count k = 1) ∧
      (∀ n ∈ ns, n.Key ∈ nodes.map Node.Key) ∧
      (∀ n, n ∈ ns ↔ ∃ l1 l2, nodes = l1 ++ n :: l2 ∧ ∀ m ∈ l2, m.Key ≠ n.Key) := by
  refine ⟨_, _, deduplicate_map_some o nodes edges, ?_, ?_, ?_⟩
  · intro k hk
    apply List.count_eq_one_of_mem
    · exact ((o.nodeOrder_perm _).map Node.Key).nodup_iff.2 (dedupVals_nodup Node.Key nodes)
    · exact ((o.nodeOrder_perm _).map Node.Key).mem_iff.2 ((dedupVals_keys Node.Key nodes k).2 hk)
  · intro n hn
    exact List.mem_map_of_mem Node.Key
      (dedupVals_subset Node.Key nodes n ((o.mem_nodeOrder _ n).1 hn))
  · intro n
    rw [o.mem_nodeOrder, mem_dedupVals, lastWins_iff]

/-- C8 (evaluation at the failing input). The edges `a->b -> c` and `a -> b->c` differ in
both endpoints, yet both get the map key `a->b->c`, so `deduplicate` returns one edge for
the two distinct pairs, whatever the map iteration order. -/
theorem deduplicate_merges_distinct_pairs (o : MapOrder) :
    deduplicate o [] [some (Edge.mk "a->b" "c" ""), some (Edge.mk "a" "b->c" "")] =
      some ([], [Edge.mk "a" "b->c" ""]) := by
  have h : deduplicate o ([].map some)
      ([Edge.mk "a->b" "c" "", Edge.mk "a" "b->c" ""].map some) = _ :=
    deduplicate_map_some o [] [Edge.mk "a->b" "c" "", Edge.mk "a" "b->c" ""]
  have h1 : dedupVals edgeKey [Edge.mk "a->b" "c" "", Edge.mk "a" "b->c" ""] =
      [Edge.mk "a" "b->c" ""] := by decide
  have h2 : dedupVals Node.Key [] = [] := rfl
  rw [h1, h2, o.nodeOrder_nil, o.edgeOrder_singleton] at h
  exact h

/-- C9. Duplicate edge collapse: on every list of edges `deduplicate` returns, and no two
returned edges have the same (source, target) pair; an input consisting of one edge
repeated two or more times yields exactly that one edge. This holds for every map
iteration order. -/
theorem deduplicate_edges_no_duplicate_pair (o : MapOrder) (nodes : List Node)
    (edges : List Edge) (e : Edge) (n : Nat) :
    (∃ ns es, deduplicate o (nodes.map some) (edges.map some) = some (ns, es) ∧
      (es.map (fun x => (x.SourceNodeKey, x.TargetNodeKey))).Nodup) ∧
    deduplicate o [] (List.replicate (n + 2) (some e)) = some ([], [e]) := by
  constructor
  · refine ⟨_, _, deduplicate_map_some o nodes edges, ?_⟩
    have h1 : ((o.edgeOrder (dedupVals edgeKey edges)).map edgeKey).Nodup :=
      ((o.edgeOrder_perm _).map edgeKey).nodup_iff.2 (dedupVals_nodup edgeKey edges)
    have h2 : (o.edgeOrder (dedupVals edgeKey edges)).map edgeKey =
        ((o.edgeOrder (dedupVals edgeKey edges)).map
          (fun x => (x.SourceNodeKey, x.TargetNodeKey))).map
          (fun p => p.1 ++ "->" ++ p.2) := by
      rw [List.map_map]; rfl
    rw [h2] at h1
    exact h1.of_map _
  · have h : deduplicate o ([].map some) ((List.replicate (n + 2) e).map some) = _ :=
      deduplicate_map_some o [] (List.replicate (n + 2) e)
    have h1 : ∀ k : Nat, fill edgeKey [(edgeKey e, e)] (List.replicate k e) =
        [(edgeKey e, e)] := by
      intro k
      induction k with
      | zero => rfl
      | succ k ih =>
        rw [List.replicate_succ, fill_cons]
        simpa [mapSet] using ih
    have h2 : dedupVals edgeKey (List.replicate (n + 2) e) = [e] := by
      unfold dedupVals
      rw [List.replicate_succ, fill_cons]
      simp only [mapSet]
      rw [h1]
      rfl
    have h3 : dedupVals Node.Key [] = [] := rfl
    rw [h2, h3, o.nodeOrder_nil, o.edgeOrder_singleton, List.map_replicate] at h
    exact h

/-- C10. Idempotence of deduplication: on every list of nodes and of edges `deduplicate`
returns, `deduplicate` applied to what it returned returns too, and the second result holds
the same nodes and the same edges as the first (each list is a rearrangement of the other),
whatever the map iteration orders of the two calls. -/
theorem deduplicate_idempotent (o o' : MapOrder) (nodes : List Node) (edges : List Edge) :
    ∃ ns es ns' es', deduplicate o (nodes.map some) (edges.map some) = some (ns, es) ∧
      deduplicate o' (ns.map some) (es.map some) = some (ns', es') ∧
      ns'.Perm ns ∧ es'.Perm es ∧ (∀ n, n ∈ ns' ↔ n ∈ ns) ∧ (∀ e, e ∈ es' ↔ e ∈ es) := by
  have hn : ((o.nodeOrder (dedupVals Node.Key nodes)).map Node.Key).Nodup :=
    ((o.nodeOrder_perm _).map Node.Key).nodup_iff.2 (dedupVals_nodup Node.Key nodes)
  have he : ((o.edgeOrder (dedupVals edgeKey edges)).map edgeKey).Nodup :=
    ((o.edgeOrder_perm _).map edgeKey).nodup_iff.2 (dedupVals_nodup edgeKey edges)
  refine ⟨_, _, _, _, deduplicate_map_some o nodes edges, deduplicate_map_some o' _ _, ?_, ?_,
    ?_, ?_⟩
  · rw [dedupVals_of_nodup Node.Key _ hn]
    exact o'.nodeOrder_perm _
  · rw [dedupVals_of_nodup edgeKey _ he]
    exact o'.edgeOrder_perm _
  · intro n
    rw [dedupVals_of_nodup Node.Key _ hn, o'.mem_nodeOrder]
  · intro e
    rw [dedupVals_of_nodup edgeKey _ he, o'.mem_edgeOrder]


theorem flattenGraph_none (o : MapOrder) : flattenGraph o none = some ([], []) := by
  rw [flattenGraph]

theorem flattenGraph_some (o : MapOrder) (nodes : List (Option Node)) (edges : List (Option Edge)) :
    flattenGraph o (some (.mk nodes edges)) =
      match flattenLoop o [] [] nodes with
      | none => none
      | some (allNodes, allEdges) => deduplicate o allNodes (allEdges ++ edges) := by
  rw [flattenGraph]

theorem flattenLoop_nil (o : MapOrder) (a : List (Option Node)) (b : List (Option Edge)) :
    flattenLoop o a b [] = some (a, b) := by
  rw [flattenLoop]

theorem flattenLoop_cons_none (o : MapOrder) (a : List (Option Node)) (b : List (Option Edge))
    (rest : List (Option Node)) :
    flattenLoop o a b (none :: rest) = none := by
  rw [flattenLoop]

theorem flattenLoop_cons_some (o : MapOrder) (a : List (Option Node)) (b : List (Option Edge))
    (node : Node) (rest : List (Option Node)) :
    flattenLoop o a b (some node :: rest) =
      if node.GraphSchema.isSome then
        match processNestedGraph o node with
        | none => none
        | some (subNodes, subEdges) => flattenLoop o (a ++ subNodes) (b ++ subEdges) rest
      else flattenLoop o (a ++ [some node]) b rest := by
  rw [flattenLoop]

theorem processNestedGraph_leaf (o : MapOrder) (k nm : String) (t : NodeType)
    (c : Option ComponentSchema) :
    processNestedGraph o (.mk k nm t c none) = none := by
  rw [processNestedGraph]

theorem processNestedGraph_some (o : MapOrder) (k nm : String) (t : NodeType)
    (c : Option ComponentSchema) (nodes : List (Option Node)) (edges : List (Option Edge)) :
    processNestedGraph o (.mk k nm t c (some (.mk nodes edges))) =
      match scanStartEnd none none nodes with
      | none => none
      | some (startNode, endNode) =>
        match flattenGraph o (some (.mk nodes edges)) with
        | none => none
        | some (subNodes, subEdges) =>
          match rewireLoop k startNode endNode [] edges with
          | none => none
          | some modifiedEdges =>
            some (subNodes.map some ++ [startNode, endNode],
              subEdges.map some ++ modifiedEdges.map some) := by
  rw [processNestedGraph]


theorem flattenLoop_acc (o : MapOrder) (nodes : List (Option Node)) :
    ∀ (a : List (Option Node)) (b : List (Option Edge)),
      flattenLoop o a b nodes =
        (flattenLoop o [] [] nodes).map (fun r => (a ++ r.1, b ++ r.2)) := by
  induction nodes with
  | nil => intro a b; simp [flattenLoop_nil]
  | cons x rest ih =>
    intro a b
    cases x with
    | none => simp [flattenLoop_cons_none]
    | some node =>
      rw [flattenLoop_cons_some, flattenLoop_cons_some]
      by_cases hc : node.GraphSchema.isSome
      · simp only [hc, if_true]
        cases processNestedGraph o node with
        | none => rfl
        | some r =>
          obtain ⟨sn, se⟩ := r
          simp only [List.nil_append]
          rw [ih (a ++ sn) (b ++ se), ih sn se]
          cases flattenLoop o [] [] rest <;> simp
      · simp only [hc, if_false, List.nil_append]
        rw [ih (a ++ [some node]) b, ih [some node] []]
        cases flattenLoop o [] [] rest <;> simp

theorem flattenLoop_leaf (o : MapOrder) (node : Node) (rest : List (Option Node))
    (h : node.GraphSchema = none) :
    flattenLoop o [] [] (some node :: rest) =
      (flattenLoop o [] [] rest).map (fun r => (some node :: r.1, r.2)) := by
  rw [flattenLoop_cons_some, h]
  simp only [Option.isSome_none, Bool.false_eq_true, if_false, List.nil_append]
  rw [flattenLoop_acc]
  cases flattenLoop o [] [] rest <;> simp

theorem flattenLoop_composite (o : MapOrder) (node : Node) (rest : List (Option Node))
    (h : node.GraphSchema.isSome) :
    flattenLoop o [] [] (some node :: rest) =
      match processNestedGraph o node with
      | none => none
      | some (subNodes, subEdges) =>
        (flattenLoop o [] [] rest).map (fun r => (subNodes ++ r.1, subEdges ++ r.2)) := by
  rw [flattenLoop_cons_some]
  simp only [h, if_true, List.nil_append]
  cases processNestedGraph o node with
  | none => rfl
  | some r =>
    obtain ⟨sn, se⟩ := r
    simp only
    rw [flattenLoop_acc]

/-- A successful run of `flattenGraph`, of its loop and of `processNestedGraph` is built
from successful runs on the parts; a property of all successful runs follows from its
being preserved by each step. -/
theorem flatten_run_induction (o : MapOrder)
    (PG : Option GraphSchema → List Node → List Edge → Prop)
    (PL : List (Option Node) → List (Option Node) → List (Option Edge) → Prop)
    (PN : Node → List (Option Node) → List (Option Edge) → Prop)
    (hnil : PG none [] [])
    (hG : ∀ nodes edges A B ns es, flattenLoop o [] [] nodes = some (A, B) → PL nodes A B →
      deduplicate o A (B ++ edges) = some (ns, es) → PG (some (.mk nodes edges)) ns es)
    (hLnil : PL [] [] [])
    (hLleaf : ∀ node rest A B, node.GraphSchema = none →
      flattenLoop o [] [] rest = some (A, B) → PL rest A B →
      PL (some node :: rest) (some node :: A) B)
    (hLcomp : ∀ node rest sn se A B, node.GraphSchema.isSome →
      processNestedGraph o node = some (sn, se) → PN node sn se →
      flattenLoop o [] [] rest = some (A, B) → PL rest A B →
      PL (some node :: rest) (sn ++ A) (se ++ B))
    (hN : ∀ k nm t c nodes edges s e subN subE modE,
      scanStartEnd none none nodes = some (s, e) →
      flattenGraph o (some (.mk nodes edges)) = some (subN, subE) →
      PG (some (.mk nodes edges)) subN subE →
      rewireLoop k s e [] edges = some modE →
      PN (.mk k nm t c (some (.mk nodes edges))) (subN.map some ++ [s, e])
        (subE.map some ++ modE.map some)) :
    (∀ gs ns es, flattenGraph o gs = some (ns, es) → PG gs ns es) ∧
    (∀ nodes A B, flattenLoop o [] [] nodes = some (A, B) → PL nodes A B) ∧
    (∀ node sn se, processNestedGraph o node = some (sn, se) → PN node sn se) := by
  have stepG : ∀ nodes edges,
      (∀ A B, flattenLoop o [] [] nodes = some (A, B) → PL nodes A B) →
      ∀ ns es, flattenGraph o (some (.mk nodes edges)) = some (ns, es) →
        PG (some (.mk nodes edges)) ns es := by
    intro nodes edges ih ns es h
    rw [flattenGraph_some] at h
    cases hl : flattenLoop o [] [] nodes with
    | none => simp [hl] at h
    | some r =>
      obtain ⟨A, B⟩ := r
      simp only [hl] at h
      exact hG nodes edges A B ns es hl (ih A B hl) h
  have stepL : ∀ (x : Option Node) (rest : List (Option Node)),
      (∀ n, x = some n → ∀ sn se, processNestedGraph o n = some (sn, se) → PN n sn se) →
      (∀ A B, flattenLoop o [] [] rest = some (A, B) → PL rest A B) →
      ∀ A B, flattenLoop o [] [] (x :: rest) = some (A, B) → PL (x :: rest) A B := by
    intro x rest ihx ihrest A B h
    cases x with
    | none => simp [flattenLoop_cons_none] at h
    | some node =>
      by_cases hc : node.GraphSchema.isSome
      · rw [flattenLoop_composite o node rest hc] at h
        cases hp : processNestedGraph o node with
        | none => simp [hp] at h
        | some r =>
          obtain ⟨sn, se⟩ := r
          cases hl : flattenLoop o [] [] rest with
          | none => simp [hp, hl] at h
          | some r' =>
            obtain ⟨A', B'⟩ := r'
            simp only [hp, hl, Option.map_some', Option.some.injEq, Prod.mk.injEq] at h
            obtain ⟨rfl, rfl⟩ := h
            exact hLcomp node rest sn se A' B' hc hp (ihx node rfl sn se hp) hl
              (ihrest A' B' hl)
      · have hc' : node.GraphSchema = none := by
          cases hg : node.GraphSchema with
          | none => rfl
          | some g => simp [hg] at hc
        rw [flattenLoop_leaf o node rest hc'] at h
        cases hl : flattenLoop o [] [] rest with
        | none => simp [hl] at h
        | some r' =>
          obtain ⟨A', B'⟩ := r'
          simp only [hl, Option.map_some', Option.some.injEq, Prod.mk.injEq] at h
          obtain ⟨rfl, rfl⟩ := h
          exact hLleaf node rest A' B' hc' hl (ihrest A' B' hl)
  have stepNil : ∀ A B, flattenLoop o [] [] [] = some (A, B) → PL [] A B := by
    intro A B h
    rw [flattenLoop_nil] at h
    simp only [Option.some.injEq, Prod.mk.injEq] at h
    obtain ⟨rfl, rfl⟩ := h
    exact hLnil
  have stepNone : ∀ ns es, flattenGraph o none = some (ns, es) → PG none ns es := by
    intro ns es h
    rw [flattenGraph_none] at h
    simp only [Option.some.injEq, Prod.mk.injEq] at h
    obtain ⟨rfl, rfl⟩ := h
    exact hnil
  have node : ∀ n : Node, ∀ sn se, processNestedGraph o n = some (sn, se) → PN n sn se := by
    intro n
    have hMk : ∀ (k nm : String) (t : NodeType) (c : Option ComponentSchema)
        (gs : Option GraphSchema),
        (∀ ns es, flattenGraph o gs = some (ns, es) → PG gs ns es) →
        ∀ sn se, processNestedGraph o (.mk k nm t c gs) = some (sn, se) →
          PN (.mk k nm t c gs) sn se := by
      intro k nm t c gs ih sn se h
      cases gs with
      | none => simp [processNestedGraph_leaf] at h
      | some g =>
        obtain ⟨nodes, edges⟩ := g
        rw [processNestedGraph_some] at h
        cases hs : scanStartEnd none none nodes with
        | none => simp [hs] at h
        | some se' =>
          obtain ⟨s, e⟩ := se'
          cases hf : flattenGraph o (some (.mk nodes edges)) with
          | none => simp [hs, hf] at h
          | some r =>
            obtain ⟨subN, subE⟩ := r
            cases hr : rewireLoop k s e [] edges with
            | none => simp [hs, hf, hr] at h
            | some modE =>
              simp only [hs, hf, hr, Option.some.injEq, Prod.mk.injEq] at h
              obtain ⟨rfl, rfl⟩ := h
              exact hN k nm t c nodes edges s e subN subE modE hs hf (ih _ _ hf) hr
    exact @Node.rec
      (fun n => ∀ sn se, processNestedGraph o n = some (sn, se) → PN n sn se)
      (fun g => ∀ ns es, flattenGraph o (some g) = some (ns, es) → PG (some g) ns es)
      (fun gs => ∀ ns es, flattenGraph o gs = some (ns, es) → PG gs ns es)
      (fun nodes => ∀ A B, flattenLoop o [] [] nodes = some (A, B) → PL nodes A B)
      (fun x => ∀ n, x = some n →
        ∀ sn se, processNestedGraph o n = some (sn, se) → PN n sn se)
      hMk stepG stepNone (fun _ ih => ih) stepNil stepL (fun _ h => nomatch h)
      (fun _ ih _ hm => by cases hm; exact ih) n
  have loop : ∀ nodes A B, flattenLoop o [] [] nodes = some (A, B) → PL nodes A B := by
    intro nodes
    induction nodes with
    | nil => exact stepNil
    | cons x rest ih => exact stepL x rest (fun n _ => node n) ih
  refine ⟨?_, loop, node⟩
  intro gs ns es h
  cases gs with
  | none => exact stepNone ns es h
  | some g =>
    obtain ⟨nodes, edges⟩ := g
    exact stepG nodes edges (loop nodes) ns es h


/-! ## Lemmas on the nodes of a graph -/

theorem nodesDeep_some (nodes : List (Option Node)) (edges : List (Option Edge)) :
    nodesDeep (some (.mk nodes edges)) = nodesDeepList nodes := by
  rw [nodesDeep]

theorem nodesDeepNode_eq (n : Node) : nodesDeepNode n = nodesDeep n.GraphSchema := by
  cases n with
  | mk k nm t c gs => rw [nodesDeepNode]; rfl

theorem mem_nodesDeepList (nodes : List (Option Node)) (n : Node) :
    n ∈ nodesDeepList nodes ↔ ∃ m, some m ∈ nodes ∧ (n = m ∨ n ∈ nodesDeepNode m) := by
  induction nodes with
  | nil => simp [nodesDeepList]
  | cons x rest ih =>
    cases x with
    | none =>
      rw [nodesDeepList, ih]
      simp
    | some a =>
      rw [nodesDeepList]
      simp only [List.mem_cons, List.mem_append, ih, Option.some.injEq]
      constructor
      · rintro (h | h | ⟨m, hm, h⟩)
        · exact ⟨a, Or.inl rfl, Or.inl h⟩
        · exact ⟨a, Or.inl rfl, Or.inr h⟩
        · exact ⟨m, Or.inr hm, h⟩
      · rintro ⟨m, rfl | hm, h⟩
        · exact h.elim Or.inl (fun h => Or.inr (Or.inl h))
        · exact Or.inr (Or.inr ⟨m, hm, h⟩)

theorem scanStartEnd_mem (nodes : List (Option Node)) :
    ∀ (s0 e0 s e : Option Node), scanStartEnd s0 e0 nodes = some (s, e) →
      (∀ n, s = some n → s0 = some n ∨ (some n ∈ nodes ∧ n.Typ = NodeTypeOfStart)) ∧
      (∀ n, e = some n → e0 = some n ∨ (some n ∈ nodes ∧ n.Typ = NodeTypeOfEnd)) := by
  induction nodes with
  | nil =>
    intro s0 e0 s e h
    simp only [scanStartEnd, Option.some.injEq, Prod.mk.injEq] at h
    obtain ⟨rfl, rfl⟩ := h
    exact ⟨fun n hn => Or.inl hn, fun n hn => Or.inl hn⟩
  | cons x rest ih =>
    intro s0 e0 s e h
    cases x with
    | none => simp [scanStartEnd] at h
    | some a =>
      simp only [scanStartEnd] at h
      by_cases h1 : a.Typ = NodeTypeOfStart
      · simp only [h1, if_true] at h
        obtain ⟨hs, he⟩ := ih _ _ _ _ h
        refine ⟨fun n hn => ?_, fun n hn => ?_⟩
        · rcases hs n hn with h' | ⟨h', h''⟩
          · cases h'
            exact Or.inr ⟨List.mem_cons_self _ _, h1⟩
          · exact Or.inr ⟨List.mem_cons_of_mem _ h', h''⟩
        · rcases he n hn with h' | ⟨h', h''⟩
          · exact Or.inl h'
          · exact Or.inr ⟨List.mem_cons_of_mem _ h', h''⟩
      · simp only [h1, if_false] at h
        by_cases h2 : a.Typ = NodeTypeOfEnd
        · simp only [h2, if_true] at h
          obtain ⟨hs, he⟩ := ih _ _ _ _ h
          refine ⟨fun n hn => ?_, fun n hn => ?_⟩
          · rcases hs n hn with h' | ⟨h', h''⟩
            · exact Or.inl h'
            · exact Or.inr ⟨List.mem_cons_of_mem _ h', h''⟩
          · rcases he n hn with h' | ⟨h', h''⟩
            · cases h'
              exact Or.inr ⟨List.mem_cons_self _ _, h2⟩
            · exact Or.inr ⟨List.mem_cons_of_mem _ h', h''⟩
        · simp only [h2, if_false] at h
          obtain ⟨hs, he⟩ := ih _ _ _ _ h
          refine ⟨fun n hn => ?_, fun n hn => ?_⟩
          · rcases hs n hn with h' | ⟨h', h''⟩
            · exact Or.inl h'
            · exact Or.inr ⟨List.mem_cons_of_mem _ h', h''⟩
          · rcases he n hn with h' | ⟨h', h''⟩
            · exact Or.inl h'
            · exact Or.inr ⟨List.mem_cons_of_mem _ h', h''⟩

theorem deduplicate_node_mem (o : MapOrder) (A : List (Option Node)) (B : List (Option Edge))
    (ns : List Node) (es : List Edge) (h : deduplicate o A B = some (ns, es)) (n : Node)
    (hn : n ∈ ns) : some n ∈ A := by
  obtain ⟨A', B', rfl, rfl, rfl, rfl⟩ := deduplicate_eq_some o A B ns es h
  exact List.mem_map_of_mem some (dedupVals_subset Node.Key A' n ((o.mem_nodeOrder _ n).1 hn))

theorem deduplicate_node_key (o : MapOrder) (A : List (Option Node)) (B : List (Option Edge))
    (ns : List Node) (es : List Edge) (h : deduplicate o A B = some (ns, es)) (n : Node)
    (hn : some n ∈ A) : n.Key ∈ ns.map Node.Key := by
  obtain ⟨A', B', rfl, rfl, rfl, rfl⟩ := deduplicate_eq_some o A B ns es h
  have hn' : n ∈ A' := by simpa using hn
  exact ((o.nodeOrder_perm _).map Node.Key).mem_iff.2
    ((dedupVals_keys Node.Key A' n.Key).2 (List.mem_map_of_mem Node.Key hn'))

/-- Every node that `flattenGraph` returns is a node of the graph, at some depth. -/
theorem flattenGraph_nodes_from_graph (o : MapOrder) (gs : Option GraphSchema)
    (ns : List Node) (es : List Edge) (h : flattenGraph o gs = some (ns, es)) :
    ∀ n ∈ ns, n ∈ nodesDeep gs := by
  refine (flatten_run_induction o
    (fun gs ns _ => ∀ n ∈ ns, n ∈ nodesDeep gs)
    (fun nodes A _ => ∀ n, some n ∈ A → n ∈ nodesDeepList nodes)
    (fun node sn _ => ∀ n, some n ∈ sn → n ∈ nodesDeepNode node)
    ?_ ?_ ?_ ?_ ?_ ?_).1 gs ns es h
  · intro n hn; simp at hn
  · intro nodes edges A B ns es _ hPL hd n hn
    rw [nodesDeep_some]
    exact hPL n (deduplicate_node_mem o A _ ns es hd n hn)
  · intro n hn; simp at hn
  · intro node rest A B _ _ hPL n hn
    rw [mem_nodesDeepList]
    rcases List.mem_cons.1 hn with h1 | h1
    · exact ⟨n, by rw [h1]; exact List.mem_cons_self _ _, Or.inl rfl⟩
    · obtain ⟨m, hm, hm'⟩ := (mem_nodesDeepList rest n).1 (hPL n h1)
      exact ⟨m, List.mem_cons_of_mem _ hm, hm'⟩
  · intro node rest sn se A B _ _ hPN _ hPL n hn
    rw [mem_nodesDeepList]
    rcases List.mem_append.1 hn with h1 | h1
    · exact ⟨node, List.mem_cons_self _ _, Or.inr (hPN n h1)⟩
    · obtain ⟨m, hm, hm'⟩ := (mem_nodesDeepList rest n).1 (hPL n h1)
      exact ⟨m, List.mem_cons_of_mem _ hm, hm'⟩
  · intro k nm t c nodes edges s e subN subE modE hs _ hPG _ n hn
    rw [nodesDeepNode_eq]
    change n ∈ nodesDeep (some (.mk nodes edges))
    rcases List.mem_append.1 hn with h1 | h1
    · have : n ∈ subN := by simpa using h1
      exact hPG n this
    · rw [nodesDeep_some, mem_nodesDeepList]
      obtain ⟨h3, h4⟩ := scanStartEnd_mem nodes none none s e hs
      simp only [List.mem_cons, List.mem_singleton, List.not_mem_nil, or_false] at h1
      rcases h1 with h1 | h1
      · rcases h3 n h1.symm with h5 | ⟨h5, _⟩
        · cases h5
        · exact ⟨n, h5, Or.inl rfl⟩
      · rcases h4 n h1.symm with h5 | ⟨h5, _⟩
        · cases h5
        · exact ⟨n, h5, Or.inl rfl⟩

/-- Every leaf of the graph, at any depth, has its key among the keys `flattenGraph`
returns. -/
theorem flattenGraph_leaf_key (o : MapOrder) (gs : Option GraphSchema)
    (ns : List Node) (es : List Edge) (h : flattenGraph o gs = some (ns, es)) :
    ∀ n ∈ nodesDeep gs, n.GraphSchema = none → n.Key ∈ ns.map Node.Key := by
  refine (flatten_run_induction o
    (fun gs ns _ => ∀ n ∈ nodesDeep gs, n.GraphSchema = none → n.Key ∈ ns.map Node.Key)
    (fun nodes A _ => ∀ n ∈ nodesDeepList nodes, n.GraphSchema = none →
      ∃ n', some n' ∈ A ∧ n'.Key = n.Key)
    (fun node sn _ => ∀ n ∈ nodesDeepNode node, n.GraphSchema = none →
      ∃ n', some n' ∈ sn ∧ n'.Key = n.Key)
    ?_ ?_ ?_ ?_ ?_ ?_).1 gs ns es h
  · intro n hn; simp [nodesDeep] at hn
  · intro nodes edges A B ns es _ hPL hd n hn hleaf
    rw [nodesDeep_some] at hn
    obtain ⟨n', hn', hk⟩ := hPL n hn hleaf
    rw [← hk]
    exact deduplicate_node_key o A _ ns es hd n' hn'
  · intro n hn; simp [nodesDeepList] at hn
  · intro node rest A B hnode _ hPL n hn hleaf
    obtain ⟨m, hm, hm'⟩ := (mem_nodesDeepList _ n).1 hn
    rcases List.mem_cons.1 hm with h1 | h1
    · cases h1
      rcases hm' with rfl | h2
      · exact ⟨n, List.mem_cons_self _ _, rfl⟩
      · rw [nodesDeepNode_eq, hnode] at h2
        simp [nodesDeep] at h2
    · obtain ⟨n', hn', hk⟩ := hPL n ((mem_nodesDeepList rest n).2 ⟨m, h1, hm'⟩) hleaf
      exact ⟨n', List.mem_cons_of_mem _ hn', hk⟩
  · intro node rest sn se A B hnode _ hPN _ hPL n hn hleaf
    obtain ⟨m, hm, hm'⟩ := (mem_nodesDeepList _ n).1 hn
    rcases List.mem_cons.1 hm with h1 | h1
    · cases h1
      rcases hm' with rfl | h2
      · rw [hleaf] at hnode
        simp at hnode
      · obtain ⟨n', hn', hk⟩ := hPN n h2 hleaf
        exact ⟨n', List.mem_append_left _ hn', hk⟩
    · obtain ⟨n', hn', hk⟩ := hPL n ((mem_nodesDeepList rest n).2 ⟨m, h1, hm'⟩) hleaf
      exact ⟨n', List.mem_append_right _ hn', hk⟩
  · intro k nm t c nodes edges s e subN subE modE _ _ hPG _ n hn hleaf
    rw [nodesDeepNode_eq] at hn
    obtain ⟨n', hn', hk⟩ := List.mem_map.1 (hPG n hn hleaf)
    exact ⟨n', List.mem_append_left _ (List.mem_map_of_mem some hn'), hk⟩


/-! ## `flattenGraph`: leaves and graphs without nesting -/

theorem flattenLoop_all_leaf (o : MapOrder) (nodes : List (Option Node))
    (h : ∀ n, some n ∈ nodes → n.GraphSchema = none) :
    (none ∈ nodes → flattenLoop o [] [] nodes = none) ∧
    (none ∉ nodes → flattenLoop o [] [] nodes = some (nodes, [])) := by
  induction nodes with
  | nil => simp [flattenLoop_nil]
  | cons x rest ih =>
    cases x with
    | none => simp [flattenLoop_cons_none]
    | some n =>
      rw [flattenLoop_leaf o n rest (h n (List.mem_cons_self _ _))]
      obtain ⟨ih1, ih2⟩ := ih (fun m hm => h m (List.mem_cons_of_mem _ hm))
      constructor
      · intro hr
        have hr' : none ∈ rest := by simpa using hr
        rw [ih1 hr']; rfl
      · intro hr
        have hr' : none ∉ rest := fun hc => hr (List.mem_cons_of_mem _ hc)
        rw [ih2 hr']; rfl

theorem deduplicate_sameSets (o o' : MapOrder) (A : List (Option Node))
    (B : List (Option Edge)) : SameSets (deduplicate o A B) (deduplicate o' A B) := by
  unfold deduplicate
  cases nodeLoop [] A with
  | none => exact trivial
  | some nodeMap =>
    cases edgeLoop [] B with
    | none => exact trivial
    | some edgeMap =>
      exact ⟨(o.nodeOrder_perm _).trans (o'.nodeOrder_perm _).symm,
        (o.edgeOrder_perm _).trans (o'.edgeOrder_perm _).symm⟩

theorem eq_map_some_of_not_mem {α : Type} (l : List (Option α)) (h : none ∉ l) :
    ∃ l' : List α, l = l'.map some := by
  induction l with
  | nil => exact ⟨[], rfl⟩
  | cons x rest ih =>
    cases x with
    | none => exact absurd (List.mem_cons_self _ _) h
    | some a =>
      obtain ⟨l', hl'⟩ := ih (fun hc => h (List.mem_cons_of_mem _ hc))
      exact ⟨a :: l', by rw [hl']; rfl⟩

/-- C6. Flattening a graph with zero nested nodes: when no node of a non-nil graph has a
nested graph, `flattenGraph` gives exactly what `deduplicate` gives on the graph's own
nodes and edges (the same outcome under the same map iteration order, the same sets of
nodes and of edges under any two orders), and it returns a result when no entry is nil. -/
theorem flattenGraph_without_nested (o o' : MapOrder) (G : GraphSchema)
    (h : ∀ n, some n ∈ G.Nodes → n.GraphSchema = none) :
    flattenGraph o (some G) = deduplicate o G.Nodes G.Edges ∧
    SameSets (flattenGraph o (some G)) (deduplicate o' G.Nodes G.Edges) ∧
    (none ∉ G.Nodes → none ∉ G.Edges → ∃ ns es, flattenGraph o (some G) = some (ns, es)) := by
  obtain ⟨nodes, edges⟩ := G
  have h' : ∀ n, some n ∈ nodes → n.GraphSchema = none := h
  have heq : flattenGraph o (some (.mk nodes edges)) = deduplicate o nodes edges := by
    rw [flattenGraph_some]
    by_cases hn : none ∈ nodes
    · rw [(flattenLoop_all_leaf o nodes h').1 hn]
      simp [deduplicate, nodeLoop_none nodes hn]
    · rw [(flattenLoop_all_leaf o nodes h').2 hn]
      rfl
  refine ⟨heq, ?_, ?_⟩
  · rw [heq]
    exact deduplicate_sameSets o o' _ _
  · intro h1 h2
    obtain ⟨ns, hns⟩ := eq_map_some_of_not_mem nodes h1
    obtain ⟨es, hes⟩ := eq_map_some_of_not_mem edges h2
    rw [heq]
    change ∃ ns es, deduplicate o nodes edges = some (ns, es)
    rw [hns, hes]
    exact ⟨_, _, deduplicate_map_some o ns es⟩

/-- C6 (witness). `flatGraph` has no nested graph; flattening it is deduplicating it. -/
theorem flattenGraph_without_nested_witness :
    (∀ n, some n ∈ flatGraph.Nodes → n.GraphSchema = none) ∧
    flattenGraph MapOrder.insertion (some flatGraph) =
      deduplicate MapOrder.insertion flatGraph.Nodes flatGraph.Edges ∧
    SameSets (flattenGraph MapOrder.insertion (some flatGraph))
      (deduplicate MapOrder.reversed flatGraph.Nodes flatGraph.Edges) ∧
    (none ∉ flatGraph.Nodes → none ∉ flatGraph.Edges →
      ∃ ns es, flattenGraph MapOrder.insertion (some flatGraph) = some (ns, es)) :=
  have hleaf : ∀ n, some n ∈ flatGraph.Nodes → n.GraphSchema = none := by
    intro n hn
    simp only [flatGraph, GraphSchema.Nodes, List.mem_cons, Option.some.injEq,
      List.not_mem_nil, or_false] at hn
    rcases hn with rfl | rfl <;> rfl
  ⟨hleaf, flattenGraph_without_nested MapOrder.insertion MapOrder.reversed flatGraph hleaf⟩


/-! ## The map iteration order does not matter -/

theorem agree_refl {α : Type} (key : α → String) (A : List α) : Agree key A A :=
  ⟨fun _ => Iff.rfl, fun _ => Iff.rfl⟩

theorem agree_append {α : Type} (key : α → String) (A A' B B' : List α)
    (hA : Agree key A A') (hB : Agree key B B') : Agree key (A ++ B) (A' ++ B') := by
  refine ⟨fun x => ?_, fun x => ?_⟩
  · simp only [List.mem_append, hA.1 x, hB.1 x]
  · rw [lastWins_append, lastWins_append, hA.2 x, hB.2 x]
    have : (∀ y ∈ B, key y ≠ key x) ↔ (∀ y ∈ B', key y ≠ key x) :=
      ⟨fun h y hy => h y ((hB.1 y).2 hy), fun h y hy => h y ((hB.1 y).1 hy)⟩
    rw [this]

theorem agree_of_perm {α : Type} (key : α → String) (A A' : List α) (hp : A.Perm A')
    (hn : (A.map key).Nodup) : Agree key A A' := by
  have hn' : (A'.map key).Nodup := (hp.map key).nodup_iff.1 hn
  refine ⟨fun x => hp.mem_iff, fun x => ?_⟩
  rw [lastWins_of_nodup key A hn, lastWins_of_nodup key A' hn']
  exact hp.mem_iff

theorem lastWins_map_some {α : Type} (key : α → String) (A : List α) (x : α) :
    LastWins (optKey key) (A.map some) (some x) ↔ LastWins key A x := by
  induction A with
  | nil => exact Iff.rfl
  | cons a A ih =>
    change (LastWins (optKey key) (A.map some) (some x) ∨
        (some x = some a ∧ ∀ y ∈ A.map some, optKey key y ≠ optKey key (some x))) ↔
      (LastWins key A x ∨ (x = a ∧ ∀ y ∈ A, key y ≠ key x))
    rw [ih]
    simp [optKey]

theorem dedupVals_perm_of_agree {α : Type} (key : α → String) (A A' : List α)
    (h : Agree (optKey key) (A.map some) (A'.map some)) :
    (dedupVals key A).Perm (dedupVals key A') := by
  apply (List.perm_ext_iff_of_nodup (dedupVals_nodup key A).of_map
    (dedupVals_nodup key A').of_map).2
  intro x
  rw [mem_dedupVals, mem_dedupVals, ← lastWins_map_some key A, ← lastWins_map_some key A']
  exact h.2 (some x)

theorem flattenGraph_nodup (o : MapOrder) (gs : Option GraphSchema) (ns : List Node)
    (es : List Edge) (h : flattenGraph o gs = some (ns, es)) :
    (ns.map Node.Key).Nodup ∧ (es.map edgeKey).Nodup := by
  cases gs with
  | none =>
    rw [flattenGraph_none] at h
    simp only [Option.some.injEq, Prod.mk.injEq] at h
    obtain ⟨rfl, rfl⟩ := h
    exact ⟨List.nodup_nil, List.nodup_nil⟩
  | some g =>
    obtain ⟨nodes, edges⟩ := g
    rw [flattenGraph_some] at h
    cases hl : flattenLoop o [] [] nodes with
    | none => simp [hl] at h
    | some r =>
      obtain ⟨A, B⟩ := r
      simp only [hl] at h
      obtain ⟨A', B', _, _, rfl, rfl⟩ := deduplicate_eq_some o A _ ns es h
      exact ⟨((o.nodeOrder_perm _).map Node.Key).nodup_iff.2 (dedupVals_nodup Node.Key A'),
        ((o.edgeOrder_perm _).map edgeKey).nodup_iff.2 (dedupVals_nodup edgeKey B')⟩

theorem map_some_nodup_optKey {α : Type} (key : α → String) (l : List α)
    (h : (l.map key).Nodup) : ((l.map some).map (optKey key)).Nodup := by
  rw [List.map_map]
  exact h

theorem deduplicate_agree (o o' : MapOrder) (A A' : List (Option Node))
    (B B' : List (Option Edge)) (ns : List Node) (es : List Edge)
    (hA : Agree (optKey Node.Key) A A') (hB : Agree (optKey edgeKey) B B')
    (h : deduplicate o A B = some (ns, es)) :
    ∃ ns' es', deduplicate o' A' B' = some (ns', es') ∧ ns.Perm ns' ∧ es.Perm es' := by
  obtain ⟨A0, B0, rfl, rfl, rfl, rfl⟩ := deduplicate_eq_some o A B ns es h
  obtain ⟨A0', rfl⟩ := eq_map_some_of_not_mem A' (fun hc => by
    have := (hA.1 none).2 hc
    simp at this)
  obtain ⟨B0', rfl⟩ := eq_map_some_of_not_mem B' (fun hc => by
    have := (hB.1 none).2 hc
    simp at this)
  refine ⟨_, _, deduplicate_map_some o' A0' B0', ?_, ?_⟩
  · exact ((o.nodeOrder_perm _).trans (dedupVals_perm_of_agree Node.Key A0 A0' hA)).trans
      (o'.nodeOrder_perm _).symm
  · exact ((o.edgeOrder_perm _).trans (dedupVals_perm_of_agree edgeKey B0 B0' hB)).trans
      (o'.edgeOrder_perm _).symm

theorem flattenGraph_order_step (o o' : MapOrder) (gs : Option GraphSchema) (ns : List Node)
    (es : List Edge) (h : flattenGraph o gs = some (ns, es)) :
    ∃ ns' es', flattenGraph o' gs = some (ns', es') ∧ ns.Perm ns' ∧ es.Perm es' := by
  refine (flatten_run_induction o
    (fun gs ns es => ∃ ns' es', flattenGraph o' gs = some (ns', es') ∧
      ns.Perm ns' ∧ es.Perm es')
    (fun nodes A B => ∃ A' B', flattenLoop o' [] [] nodes = some (A', B') ∧
      Agree (optKey Node.Key) A A' ∧ Agree (optKey edgeKey) B B')
    (fun node sn se => ∃ sn' se', processNestedGraph o' node = some (sn', se') ∧
      Agree (optKey Node.Key) sn sn' ∧ Agree (optKey edgeKey) se se')
    ?_ ?_ ?_ ?_ ?_ ?_).1 gs ns es h
  · exact ⟨[], [], flattenGraph_none o', List.Perm.refl _, List.Perm.refl _⟩
  · intro nodes edges A B ns es _ hPL hd
    obtain ⟨A', B', hl', hA, hB⟩ := hPL
    obtain ⟨ns', es', hd', hp⟩ := deduplicate_agree o o' A A' (B ++ edges) (B' ++ edges) ns es
      hA (agree_append _ _ _ _ _ hB (agree_refl _ _)) hd
    refine ⟨ns', es', ?_, hp⟩
    rw [flattenGraph_some, hl']
    exact hd'
  · exact ⟨[], [], flattenLoop_nil o' [] [], agree_refl _ _, agree_refl _ _⟩
  · intro node rest A B hleaf _ hPL
    obtain ⟨A', B', hl', hA, hB⟩ := hPL
    refine ⟨some node :: A', B', ?_, ?_, hB⟩
    · rw [flattenLoop_leaf o' node rest hleaf, hl']; rfl
    · exact agree_append _ [some node] [some node] A A' (agree_refl _ _) hA
  · intro node rest sn se A B hcomp _ hPN _ hPL
    obtain ⟨A', B', hl', hA, hB⟩ := hPL
    obtain ⟨sn', se', hp', hsn, hse⟩ := hPN
    refine ⟨sn' ++ A', se' ++ B', ?_, agree_append _ _ _ _ _ hsn hA,
      agree_append _ _ _ _ _ hse hB⟩
    rw [flattenLoop_composite o' node rest hcomp, hp', hl']; rfl
  · intro k nm t c nodes edges s e subN subE modE hs hf hPG hr
    obtain ⟨subN', subE', hf', hpn, hpe⟩ := hPG
    obtain ⟨hnn, hne⟩ := flattenGraph_nodup o _ subN subE hf
    refine ⟨subN'.map some ++ [s, e], subE'.map some ++ modE.map some, ?_, ?_, ?_⟩
    · rw [processNestedGraph_some, hs, hf']
      simp only [hr]
    · exact agree_append _ _ _ _ _
        (agree_of_perm _ _ _ (hpn.map some) (map_some_nodup_optKey Node.Key subN hnn))
        (agree_refl _ _)
    · exact agree_append _ _ _ _ _
        (agree_of_perm _ _ _ (hpe.map some) (map_some_nodup_optKey edgeKey subE hne))
        (agree_refl _ _)

/-- The outcome of `flattenGraph` does not depend on the map iteration order: under any
two orders it panics in both cases or returns the same nodes and the same edges. -/
theorem flattenGraph_order_irrelevant (o o' : MapOrder) (gs : Option GraphSchema) :
    SameSets (flattenGraph o gs) (flattenGraph o' gs) := by
  cases h : flattenGraph o gs with
  | some r =>
    obtain ⟨ns, es⟩ := r
    obtain ⟨ns', es', h', hp⟩ := flattenGraph_order_step o o' gs ns es h
    rw [h']
    exact hp
  | none =>
    cases h' : flattenGraph o' gs with
    | none => exact trivial
    | some r =>
      obtain ⟨ns', es'⟩ := r
      obtain ⟨ns, es, h'', _⟩ := flattenGraph_order_step o' o gs ns' es' h'
      rw [h] at h''
      cases h''


/-! ## `flattenGraph`: evaluation on concrete graphs -/

/-- What `flattenGraph` returns under the insertion order is, up to rearrangement, what it
returns under every order. -/
theorem flattenGraph_of_insertion (o : MapOrder) (gs : Option GraphSchema) (ns : List Node)
    (es : List Edge) (h : flattenGraph MapOrder.insertion gs = some (ns, es)) :
    ∃ ns' es', flattenGraph o gs = some (ns', es') ∧ ns'.Perm ns ∧ es'.Perm es := by
  obtain ⟨ns', es', h', hn, he⟩ := flattenGraph_order_step MapOrder.insertion o gs ns es h
  exact ⟨ns', es', h', hn.symm, he.symm⟩

theorem shadowGraph_insertion :
    flattenGraph MapOrder.insertion (some shadowGraph) =
      some ([nodeS, shadowOuter, nodeE], [Edge.mk "S" "L" "", Edge.mk "L" "E" ""]) :=
  rfl

/-- C5 (the claim as stated fails). In `shadowGraph` the nested leaf `L` is collected before
the top-level leaf `L`; the later one takes its place in the node map, and under every map
iteration order `flattenGraph` returns a node list that does not hold the nested leaf. -/
theorem flattenGraph_leaf_shadowed :
    shadowInner ∈ nodesDeep (some shadowGraph) ∧ shadowInner.GraphSchema = none ∧
    ∀ o : MapOrder, ∃ ns es, flattenGraph o (some shadowGraph) = some (ns, es) ∧
      shadowInner ∉ ns := by
  refine ⟨?_, rfl, fun o => ?_⟩
  · simp [shadowGraph, nodesDeep, nodesDeepList, nodesDeepNode]
  · obtain ⟨ns, es, h, hn, _⟩ := flattenGraph_of_insertion o _ _ _ shadowGraph_insertion
    refine ⟨ns, es, h, fun hc => ?_⟩
    have := hn.mem_iff.1 hc
    simp [shadowInner, shadowOuter, nodeS, nodeE] at this

theorem scenarioGraph_insertion :
    flattenGraph MapOrder.insertion (some scenarioGraph) =
      some ([nodeA, nodeS, nodeL, nodeE, nodeB],
        [Edge.mk "S" "L" "", Edge.mk "L" "E" "", Edge.mk "A" "C" "", Edge.mk "C" "B" ""]) :=
  rfl

/-- C1 (evaluation at the failing input). On the substitution scenario `flattenGraph`
returns, under every map iteration order, the nodes `A, S, L, E, B` and the edges
`S -> L`, `L -> E`, `A -> C`, `C -> B`: the original edges `A -> C` and `C -> B` stay and
the substitutes `A -> S` and `E -> B` are not produced. -/
theorem flattenGraph_scenario (o : MapOrder) :
    ∃ ns es, flattenGraph o (some scenarioGraph) = some (ns, es) ∧
      ns.Perm [nodeA, nodeS, nodeL, nodeE, nodeB] ∧
      es.Perm [Edge.mk "S" "L" "", Edge.mk "L" "E" "", Edge.mk "A" "C" "",
        Edge.mk "C" "B" ""] :=
  flattenGraph_of_insertion o _ _ _ scenarioGraph_insertion

/-- C2 (evaluation at the failing input). In the substitution scenario the composite `C`
has the nested `Start` node `S` and `End` node `E`, and the parent's edge list holds
`A -> C` and `C -> B`; yet, under every map iteration order, no returned edge leads from
`A` to `S` and none from `E` to `B`. -/
theorem flattenGraph_no_rewiring (o : MapOrder) :
    some nodeC ∈ scenarioGraph.Nodes ∧
    scanStartEnd none none scenarioNested.Nodes = some (some nodeS, some nodeE) ∧
    some (Edge.mk "A" "C" "") ∈ scenarioGraph.Edges ∧
    some (Edge.mk "C" "B" "") ∈ scenarioGraph.Edges ∧
    ∃ ns es, flattenGraph o (some scenarioGraph) = some (ns, es) ∧
      (∀ e ∈ es, ¬ (e.SourceNodeKey = "A" ∧ e.TargetNodeKey = "S")) ∧
      (∀ e ∈ es, ¬ (e.SourceNodeKey = "E" ∧ e.TargetNodeKey = "B")) := by
  refine ⟨by simp [scenarioGraph, GraphSchema.Nodes], rfl,
    by simp [scenarioGraph, GraphSchema.Edges], by simp [scenarioGraph, GraphSchema.Edges], ?_⟩
  obtain ⟨ns, es, h, _, he⟩ := flattenGraph_of_insertion o _ _ _ scenarioGraph_insertion
  refine ⟨ns, es, h, ?_, ?_⟩
  · intro e hm
    have := he.mem_iff.1 hm
    simp only [List.mem_cons, List.not_mem_nil, or_false] at this
    rcases this with rfl | rfl | rfl | rfl <;> decide
  · intro e hm
    have := he.mem_iff.1 hm
    simp only [List.mem_cons, List.not_mem_nil, or_false] at this
    rcases this with rfl | rfl | rfl | rfl <;> decide

/-- C3 (evaluation at the failing input). The substitution scenario is well formed, yet
under every map iteration order `flattenGraph` returns the edge `A -> C`, whose target `C`
is the key of no returned node. -/
theorem flattenGraph_dangling_endpoint (o : MapOrder) :
    WellFormed scenarioGraph ∧
    ∃ ns es, flattenGraph o (some scenarioGraph) = some (ns, es) ∧
      ∃ e ∈ es, e.TargetNodeKey ∉ ns.map Node.Key := by
  constructor
  · refine ⟨?_, ?_⟩
    · intro e he
      simp only [scenarioGraph, GraphSchema.Edges, List.mem_cons, Option.some.injEq,
        List.not_mem_nil, or_false] at he
      rcases he with rfl | rfl
      · exact ⟨⟨nodeA, by simp [scenarioGraph, GraphSchema.Nodes], rfl⟩,
          ⟨nodeC, by simp [scenarioGraph, GraphSchema.Nodes], rfl⟩⟩
      · exact ⟨⟨nodeC, by simp [scenarioGraph, GraphSchema.Nodes], rfl⟩,
          ⟨nodeB, by simp [scenarioGraph, GraphSchema.Nodes], rfl⟩⟩
    · change WellFormedNodes [some nodeA, some nodeC, some nodeB]
      simp only [WellFormedNodes, nodeA, nodeB, nodeC, scenarioNested, WellFormedNode,
        WellFormedNested, nodeS, nodeL, nodeE, and_true, true_and]
      refine ⟨by decide, by decide, ?_⟩
      intro e he
      simp only [List.mem_cons, Option.some.injEq, List.not_mem_nil, or_false] at he
      rcases he with rfl | rfl
      · exact ⟨⟨_, List.mem_cons_self _ _, rfl⟩,
          ⟨_, List.mem_cons_of_mem _ (List.mem_cons_self _ _), rfl⟩⟩
      · exact ⟨⟨_, List.mem_cons_of_mem _ (List.mem_cons_self _ _), rfl⟩,
          ⟨_, List.mem_cons_of_mem _ (List.mem_cons_of_mem _ (List.mem_cons_self _ _)), rfl⟩⟩
  · obtain ⟨ns, es, h, hn, he⟩ := flattenGraph_of_insertion o _ _ _ scenarioGraph_insertion
    refine ⟨ns, es, h, Edge.mk "A" "C" "", he.mem_iff.2 (by simp), ?_⟩
    intro hc
    have := (hn.map Node.Key).mem_iff.1 hc
    revert this
    decide

theorem compositeStartGraph_insertion :
    flattenGraph MapOrder.insertion (some compositeStartGraph) =
      some ([.mk "S2" "" NodeTypeOfStart none none, .mk "E2" "" NodeTypeOfEnd none none,
          nodeE, compositeStart],
        [Edge.mk "S2" "E2" "", Edge.mk "S" "E" ""]) :=
  rfl

/-- C4 (evaluation at the failing input). In `compositeStartGraph` the `Start` node of the
nested graph carries a nested graph of its own; under every map iteration order
`flattenGraph` returns that node, nested graph included. -/
theorem flattenGraph_returns_composite (o : MapOrder) :
    ∃ ns es, flattenGraph o (some compositeStartGraph) = some (ns, es) ∧
      ∃ n ∈ ns, n.GraphSchema.isSome = true := by
  obtain ⟨ns, es, h, hn, _⟩ := flattenGraph_of_insertion o _ _ _ compositeStartGraph_insertion
  exact ⟨ns, es, h, compositeStart, hn.mem_iff.2 (by simp), rfl⟩

/-! ## `flattenGraph`: unique keys and the nil graph -/

/-- C11. Keys are globally unique after flattening: whenever `flattenGraph` returns a
result, no two nodes of the returned node list have the same key, whatever the graph (also
when a key occurs in several nesting levels or a nested `Start`/`End` node is collected more
than once) and whatever the map iteration order. -/
theorem flattenGraph_keys_unique (o : MapOrder) (gs : Option GraphSchema) (ns : List Node)
    (es : List Edge) (h : flattenGraph o gs = some (ns, es)) :
    (ns.map Node.Key).Nodup ∧
      ∀ n ∈ ns, ∀ m ∈ ns, n.Key = m.Key → n = m := by
  have hn := (flattenGraph_nodup o gs ns es h).1
  exact ⟨hn, fun n hn' m hm hk => List.inj_on_of_nodup_map hn hn' hm hk⟩

/-- C11 (witness). In `shadowGraph` the key `L` occurs at two nesting levels and the nested
`Start` and `End` nodes are collected twice; the returned keys are `S`, `L`, `E`. -/
theorem flattenGraph_keys_unique_witness :
    flattenGraph MapOrder.insertion (some shadowGraph) =
      some ([nodeS, shadowOuter, nodeE], [Edge.mk "S" "L" "", Edge.mk "L" "E" ""]) ∧
    (([nodeS, shadowOuter, nodeE].map Node.Key).Nodup ∧
      ∀ n ∈ [nodeS, shadowOuter, nodeE], ∀ m ∈ [nodeS, shadowOuter, nodeE],
        n.Key = m.Key → n = m) :=
  ⟨rfl, flattenGraph_keys_unique MapOrder.insertion (some shadowGraph)
    [nodeS, shadowOuter, nodeE] [Edge.mk "S" "L" "", Edge.mk "L" "E" ""] rfl⟩

/-- C12. Empty input: applied to a nil graph, `flattenGraph` returns (it does not panic),
and what it returns is an empty node list and an empty edge list, whatever the map
iteration order. -/
theorem flattenGraph_nil_graph (o : MapOrder) :
    flattenGraph o none = some ([], []) := by
  rw [flattenGraph]

/-! ## `DrawGraph`: the display label -/

theorem nodeLabel_eq_some (node : Node) (label : String) (h : nodeLabel node = some label) :
    label = fallbackLabel node.Name (derivedName node) node.Key := by
  unfold nodeLabel at h
  unfold fallbackLabel derivedName
  by_cases hn : node.Name = ""
  · rw [if_pos hn] at h
    cases hc : node.ComponentSchema with
    | none => rw [hc] at h; cases h
    | some c =>
      rw [hc] at h
      simp only [hn, ne_eq, not_true_eq_false, if_false]
      by_cases hd : c.Name = ""
      · simp only [hd, ne_eq, not_true_eq_false, if_false, Option.some.injEq] at h ⊢
        exact h.symm
      · simp only [hd, ne_eq, not_false_eq_true, if_true, Option.some.injEq] at h ⊢
        exact h.symm
  · rw [if_neg hn] at h
    simp only [ne_eq, hn, not_false_eq_true, if_true]
    exact (Option.some.inj h).symm

theorem drawNodes_forall₂ (nodes : List Node) :
    ∀ (acc out : List SimpleNode), drawNodes acc nodes = some out →
      ∃ added, out = acc ++ added ∧
        List.Forall₂ (fun (n : Node) (e : SimpleNode) => e.Key = n.Key ∧ e.Typ = n.Typ ∧
          e.Label = fallbackLabel n.Name (derivedName n) n.Key) nodes added := by
  induction nodes with
  | nil =>
    intro acc out h
    exact ⟨[], by simpa [drawNodes] using h.symm, List.Forall₂.nil⟩
  | cons n rest ih =>
    intro acc out h
    simp only [drawNodes] at h
    cases hl : nodeLabel n with
    | none => simp [hl] at h
    | some label =>
      simp only [hl] at h
      obtain ⟨added, rfl, hf⟩ := ih _ _ h
      refine ⟨SimpleNode.mk n.Key label n.Typ :: added, by simp, ?_⟩
      exact List.Forall₂.cons ⟨rfl, rfl, nodeLabel_eq_some n label hl⟩ hf

theorem drawNodes_total (nodes : List Node)
    (h : ∀ n ∈ nodes, n.Name ≠ "" ∨ n.ComponentSchema ≠ none) :
    ∀ acc, ∃ out, drawNodes acc nodes = some out := by
  induction nodes with
  | nil => intro acc; exact ⟨acc, rfl⟩
  | cons n rest ih =>
    intro acc
    have hl : ∃ label, nodeLabel n = some label := by
      unfold nodeLabel
      rcases h n (List.mem_cons_self _ _) with h1 | h1
      · exact ⟨n.Name, by rw [if_neg h1]⟩
      · by_cases hn : n.Name = ""
        · rw [if_pos hn]
          cases hc : n.ComponentSchema with
          | none => exact absurd hc h1
          | some c =>
            by_cases hd : c.Name = ""
            · exact ⟨n.Key, by simp [hd]⟩
            · exact ⟨c.Name, by simp [hd]⟩
        · exact ⟨n.Name, by rw [if_neg hn]⟩
    obtain ⟨label, hl⟩ := hl
    obtain ⟨out, hout⟩ := ih (fun m hm => h m (List.mem_cons_of_mem _ hm))
      (acc ++ [SimpleNode.mk n.Key label n.Typ])
    exact ⟨out, by simp only [drawNodes, hl]; exact hout⟩

/-- C14. Display label fallback: whenever `DrawGraph` gets as far as handing data to the
template, the node entries correspond one to one, in order, to the flattened nodes, and
each entry has the key and the type of its node unchanged and as label the node's name
when that is non-empty, otherwise the component-schema name when that is non-empty,
otherwise the node's key. The data is produced whenever flattening returns and every
flattened node has a name or a component schema. -/
theorem drawGraph_label_fallback (o : MapOrder) (gs : Option GraphSchema) :
    (∀ g, drawGraphData o gs = some g →
      ∃ ns es, flattenGraph o gs = some (ns, es) ∧
        List.Forall₂ (fun (n : Node) (e : SimpleNode) => e.Key = n.Key ∧ e.Typ = n.Typ ∧
          e.Label = fallbackLabel n.Name (derivedName n) n.Key) ns g.Nodes) ∧
    (∀ ns es, flattenGraph o gs = some (ns, es) →
      (∀ n ∈ ns, n.Name ≠ "" ∨ n.ComponentSchema ≠ none) →
      ∃ g, drawGraphData o gs = some g) := by
  constructor
  · intro g hg
    unfold drawGraphData at hg
    cases hf : flattenGraph o gs with
    | none => simp [hf] at hg
    | some r =>
      obtain ⟨ns, es⟩ := r
      simp only [hf] at hg
      cases hd : drawNodes [] ns with
      | none => simp [hd] at hg
      | some tplNodes =>
        simp only [hd, Option.some.injEq] at hg
        obtain ⟨added, rfl, hfa⟩ := drawNodes_forall₂ ns [] tplNodes hd
        refine ⟨ns, es, rfl, ?_⟩
        rw [← hg]
        simpa using hfa
  · intro ns es hf hall
    obtain ⟨out, hout⟩ := drawNodes_total ns hall []
    exact ⟨SimpleGraph.mk out (drawEdges [] es), by simp only [drawGraphData, hf, hout]⟩

/-- Evaluation of `drawGraphData` on `labelGraph`: the three labels are the
component-schema name, the key and the name. -/
theorem drawGraph_label_example :
    drawGraphData MapOrder.insertion (some labelGraph) =
      some (SimpleGraph.mk
        [SimpleNode.mk "k1" "ChatModel" "Lambda", SimpleNode.mk "k2" "k2" "Lambda",
          SimpleNode.mk "k3" "named" "Lambda"] []) :=
  rfl

/-! ## `processNestedGraph`: which `Start` and `End` node is selected -/

theorem lastOfType_eq_some (t : NodeType) (nodes : List (Option Node)) (n : Node)
    (h : lastOfType t nodes = some n) :
    ∃ l1 l2, nodes = l1 ++ some n :: l2 ∧ n.Typ = t ∧ ∀ m, some m ∈ l2 → m.Typ ≠ t := by
  induction nodes with
  | nil => simp [lastOfType] at h
  | cons x rest ih =>
    cases x with
    | none =>
      rw [lastOfType] at h
      obtain ⟨l1, l2, rfl, h1, h2⟩ := ih h
      exact ⟨none :: l1, l2, rfl, h1, h2⟩
    | some a =>
      rw [lastOfType] at h
      cases hr : lastOfType t rest with
      | some m =>
        simp only [hr, Option.some.injEq] at h
        subst h
        obtain ⟨l1, l2, rfl, h1, h2⟩ := ih hr
        exact ⟨some a :: l1, l2, rfl, h1, h2⟩
      | none =>
        simp only [hr] at h
        by_cases ha : a.Typ = t
        · simp only [ha, if_true, Option.some.injEq] at h
          subst h
          refine ⟨[], rest, rfl, ha, ?_⟩
          intro m hm hc
          have hnone : ∀ (l : List (Option Node)), lastOfType t l = none →
              ∀ m, some m ∈ l → m.Typ ≠ t := by
            intro l
            induction l with
            | nil => intro _ m hm; simp at hm
            | cons y l ihl =>
              intro hl m hm
              cases y with
              | none =>
                rw [lastOfType] at hl
                exact ihl hl m (by simpa using hm)
              | some b =>
                rw [lastOfType] at hl
                cases hl' : lastOfType t l with
                | some z => simp [hl'] at hl
                | none =>
                  simp only [hl'] at hl
                  rcases List.mem_cons.1 hm with h1 | h1
                  · obtain rfl : m = b := Option.some.inj h1
                    intro hmt
                    simp [hmt] at hl
                  · exact ihl hl' m h1
          exact hnone rest hr m hm hc
        · simp [ha] at h

theorem scanStartEnd_last (nodes : List (Option Node)) :
    ∀ (s0 e0 s e : Option Node), scanStartEnd s0 e0 nodes = some (s, e) →
      s = (match lastOfType NodeTypeOfStart nodes with
          | some m => some m
          | none => s0) ∧
      e = (match lastOfType NodeTypeOfEnd nodes with
          | some m => some m
          | none => e0) := by
  induction nodes with
  | nil =>
    intro s0 e0 s e h
    simp only [scanStartEnd, Option.some.injEq, Prod.mk.injEq] at h
    simp [lastOfType, h.1, h.2]
  | cons x rest ih =>
    intro s0 e0 s e h
    cases x with
    | none => simp [scanStartEnd] at h
    | some a =>
      simp only [scanStartEnd] at h
      have hse : NodeTypeOfStart ≠ NodeTypeOfEnd := by decide
      by_cases h1 : a.Typ = NodeTypeOfStart
      · simp only [h1, if_true] at h
        obtain ⟨hs, he⟩ := ih _ _ _ _ h
        constructor
        · rw [lastOfType, hs]
          cases lastOfType NodeTypeOfStart rest <;> simp [h1]
        · rw [lastOfType, he]
          cases lastOfType NodeTypeOfEnd rest <;> simp [h1, hse]
      · simp only [h1, if_false] at h
        by_cases h2 : a.Typ = NodeTypeOfEnd
        · simp only [h2, if_true] at h
          obtain ⟨hs, he⟩ := ih _ _ _ _ h
          constructor
          · rw [lastOfType, hs]
            cases lastOfType NodeTypeOfStart rest <;> simp [h1]
          · rw [lastOfType, he]
            cases lastOfType NodeTypeOfEnd rest <;> simp [h2]
        · simp only [h2, if_false] at h
          obtain ⟨hs, he⟩ := ih _ _ _ _ h
          constructor
          · rw [lastOfType, hs]
            cases lastOfType NodeTypeOfStart rest <;> simp [h1]
          · rw [lastOfType, he]
            cases lastOfType NodeTypeOfEnd rest <;> simp [h2]

theorem rewireLoop_mem (k : String) (s e : Option Node) (edges : List (Option Edge)) :
    ∀ (acc modE : List Edge), rewireLoop k s e acc edges = some modE →
      ∀ x, x ∈ modE ↔ x ∈ acc ∨
        (∃ ed s', some ed ∈ edges ∧ ed.TargetNodeKey = k ∧ s = some s' ∧
          x = Edge.mk ed.SourceNodeKey s'.Key "") ∨
        (∃ ed e', some ed ∈ edges ∧ ed.SourceNodeKey = k ∧ e = some e' ∧
          x = Edge.mk e'.Key ed.TargetNodeKey "") := by
  induction edges with
  | nil =>
    intro acc modE h x
    simp only [rewireLoop, Option.some.injEq] at h
    subst h
    simp
  | cons y rest ih =>
    intro acc modE h x
    cases y with
    | none => simp [rewireLoop] at h
    | some ed =>
      simp only [rewireLoop] at h
      cases h1 : rewireIn k s ed acc with
      | none => simp [h1] at h
      | some m1 =>
        cases h2 : rewireOut k e ed m1 with
        | none => simp [h1, h2] at h
        | some m2 =>
          simp only [h1, h2] at h
          rw [ih m2 modE h x]
          have hm1 : ∀ z, z ∈ m1 ↔ z ∈ acc ∨
              (ed.TargetNodeKey = k ∧ ∃ s', s = some s' ∧
                z = Edge.mk ed.SourceNodeKey s'.Key "") := by
            intro z
            unfold rewireIn at h1
            by_cases hk : ed.TargetNodeKey = k
            · cases s with
              | none => simp [hk] at h1
              | some s' =>
                simp only [hk, if_true, Option.some.injEq] at h1
                subst h1
                simp [hk]
            · simp only [hk, if_false, Option.some.injEq] at h1
              subst h1
              simp [hk]
          have hm2 : ∀ z, z ∈ m2 ↔ z ∈ m1 ∨
              (ed.SourceNodeKey = k ∧ ∃ e', e = some e' ∧
                z = Edge.mk e'.Key ed.TargetNodeKey "") := by
            intro z
            unfold rewireOut at h2
            by_cases hk : ed.SourceNodeKey = k
            · cases e with
              | none => simp [hk] at h2
              | some e' =>
                simp only [hk, if_true, Option.some.injEq] at h2
                subst h2
                simp [hk]
            · simp only [hk, if_false, Option.some.injEq] at h2
              subst h2
              simp [hk]
          rw [hm2, hm1]
          simp only [List.mem_cons, Option.some.injEq]
          constructor
          · rintro (((h3 | ⟨h3, s', h4, h5⟩) | ⟨h3, e', h4, h5⟩) | ⟨ed', s', h3, h4⟩ |
              ⟨ed', e', h3, h4⟩)
            · exact Or.inl h3
            · exact Or.inr (Or.inl ⟨ed, s', Or.inl rfl, h3, h4, h5⟩)
            · exact Or.inr (Or.inr ⟨ed, e', Or.inl rfl, h3, h4, h5⟩)
            · exact Or.inr (Or.inl ⟨ed', s', Or.inr h3, h4⟩)
            · exact Or.inr (Or.inr ⟨ed', e', Or.inr h3, h4⟩)
          · rintro (h3 | ⟨ed', s', h3 | h3, h4, h5, h6⟩ | ⟨ed', e', h3 | h3, h4, h5, h6⟩)
            · exact Or.inl (Or.inl (Or.inl h3))
            · subst h3
              exact Or.inl (Or.inl (Or.inr ⟨h4, s', h5, h6⟩))
            · exact Or.inr (Or.inl ⟨ed', s', h3, h4, h5, h6⟩)
            · subst h3
              exact Or.inl (Or.inr ⟨h4, e', h5, h6⟩)
            · exact Or.inr (Or.inr ⟨ed', e', h3, h4, h5, h6⟩)

theorem processNestedGraph_eq_some (o : MapOrder) (k nm : String) (t : NodeType)
    (c : Option ComponentSchema) (nodes : List (Option Node)) (edges : List (Option Edge))
    (sn : List (Option Node)) (se : List (Option Edge))
    (h : processNestedGraph o (.mk k nm t c (some (.mk nodes edges))) = some (sn, se)) :
    ∃ s e subN subE modE, scanStartEnd none none nodes = some (s, e) ∧
      flattenGraph o (some (.mk nodes edges)) = some (subN, subE) ∧
      rewireLoop k s e [] edges = some modE ∧
      sn = subN.map some ++ [s, e] ∧ se = subE.map some ++ modE.map some := by
  rw [processNestedGraph_some] at h
  cases hs : scanStartEnd none none nodes with
  | none => simp [hs] at h
  | some se' =>
    obtain ⟨s, e⟩ := se'
    cases hf : flattenGraph o (some (.mk nodes edges)) with
    | none => simp [hs, hf] at h
    | some r =>
      obtain ⟨subN, subE⟩ := r
      cases hr : rewireLoop k s e [] edges with
      | none => simp [hs, hf, hr] at h
      | some modE =>
        simp only [hs, hf, hr, Option.some.injEq, Prod.mk.injEq] at h
        exact ⟨s, e, subN, subE, modE, rfl, rfl, hr, h.1.symm, h.2.symm⟩

/-- C15 (as amended). Last match wins when locating `Start` and `End`: whenever
`processNestedGraph` returns for a composite node, the two nodes it appends to the flattened
nodes of the nested graph are the last node of type `Start` and the last node of type `End`
in the nested graph's node order (no later node has that type), and the edges it adds are
exactly, for each nested edge whose target is the composite's key, an edge from the same
source to the key of that last `Start` node, and, for each nested edge whose source is the
composite's key, an edge from the key of that last `End` node to the same target. -/
theorem processNestedGraph_last_match (o : MapOrder) (k nm : String) (t : NodeType)
    (c : Option ComponentSchema) (nodes : List (Option Node)) (edges : List (Option Edge))
    (sn : List (Option Node)) (se : List (Option Edge))
    (h : processNestedGraph o (.mk k nm t c (some (.mk nodes edges))) = some (sn, se)) :
    (∃ (subN : List Node) (subE modE : List Edge),
      flattenGraph o (some (.mk nodes edges)) = some (subN, subE) ∧
      sn = subN.map some ++ [lastOfType NodeTypeOfStart nodes, lastOfType NodeTypeOfEnd nodes] ∧
      se = subE.map some ++ modE.map some ∧
      ∀ x, x ∈ modE ↔
        (∃ ed s, some ed ∈ edges ∧ ed.TargetNodeKey = k ∧
          lastOfType NodeTypeOfStart nodes = some s ∧ x = Edge.mk ed.SourceNodeKey s.Key "") ∨
        (∃ ed e, some ed ∈ edges ∧ ed.SourceNodeKey = k ∧
          lastOfType NodeTypeOfEnd nodes = some e ∧ x = Edge.mk e.Key ed.TargetNodeKey "")) ∧
    (∀ tp n, lastOfType tp nodes = some n →
      ∃ l1 l2, nodes = l1 ++ some n :: l2 ∧ n.Typ = tp ∧ ∀ m, some m ∈ l2 → m.Typ ≠ tp) := by
  refine ⟨?_, fun tp n hn => lastOfType_eq_some tp nodes n hn⟩
  obtain ⟨s, e, subN, subE, modE, hs, hf, hr, rfl, rfl⟩ :=
    processNestedGraph_eq_some o k nm t c nodes edges sn se h
  obtain ⟨h1, h2⟩ := scanStartEnd_last nodes none none s e hs
  have h1' : s = lastOfType NodeTypeOfStart nodes := by
    rw [h1]; cases lastOfType NodeTypeOfStart nodes <;> rfl
  have h2' : e = lastOfType NodeTypeOfEnd nodes := by
    rw [h2]; cases lastOfType NodeTypeOfEnd nodes <;> rfl
  refine ⟨subN, subE, modE, hf, by rw [h1', h2'], rfl, fun x => ?_⟩
  rw [rewireLoop_mem k s e edges [] modE hr x, h1', h2']
  simp

/-- C15 (the claim as stated fails). In the nested graph of `twoStartNode` the first node
of type `Start` is `S1`, but the scan selects `S2`, the last one: `processNestedGraph`
appends `S2` and rewires the edge `S1 -> C` to `S1 -> S2`. -/
theorem processNestedGraph_not_first_match :
    firstOfType NodeTypeOfStart [some twoStartFirst, some twoStartSecond, some nodeE] =
      some twoStartFirst ∧
    scanStartEnd none none [some twoStartFirst, some twoStartSecond, some nodeE] =
      some (some twoStartSecond, some nodeE) ∧
    twoStartSecond ≠ twoStartFirst ∧
    processNestedGraph MapOrder.insertion twoStartNode =
      some ([some twoStartFirst, some twoStartSecond, some nodeE, some twoStartSecond,
          some nodeE],
        [some (Edge.mk "S1" "C" ""), some (Edge.mk "S1" "S2" "")]) := by
  refine ⟨rfl, rfl, ?_, rfl⟩
  simp [twoStartFirst, twoStartSecond]

/-- C15 (witness). `processNestedGraph` returns on `twoStartNode`, and what it returns ends
with the last `Start` node `S2` and the `End` node `E`. -/
theorem processNestedGraph_last_match_witness :
    processNestedGraph MapOrder.insertion twoStartNode =
      some ([some twoStartFirst, some twoStartSecond, some nodeE, some twoStartSecond,
          some nodeE],
        [some (Edge.mk "S1" "C" ""), some (Edge.mk "S1" "S2" "")]) ∧
    lastOfType NodeTypeOfStart [some twoStartFirst, some twoStartSecond, some nodeE] =
      some twoStartSecond ∧
    ∃ (subN : List Node) (subE modE : List Edge),
      flattenGraph MapOrder.insertion
        (some (.mk [some twoStartFirst, some twoStartSecond, some nodeE]
          [some (Edge.mk "S1" "C" "")])) = some (subN, subE) ∧
      [some twoStartFirst, some twoStartSecond, some nodeE, some twoStartSecond, some nodeE] =
        subN.map some ++
          [lastOfType NodeTypeOfStart [some twoStartFirst, some twoStartSecond, some nodeE],
            lastOfType NodeTypeOfEnd [some twoStartFirst, some twoStartSecond, some nodeE]] ∧
      [some (Edge.mk "S1" "C" ""), some (Edge.mk "S1" "S2" "")] =
        subE.map some ++ modE.map some :=
  have h := (processNestedGraph_last_match MapOrder.insertion "C" "" "Graph" none
    [some twoStartFirst, some twoStartSecond, some nodeE] [some (Edge.mk "S1" "C" "")]
    [some twoStartFirst, some twoStartSecond, some nodeE, some twoStartSecond, some nodeE]
    [some (Edge.mk "S1" "C" ""), some (Edge.mk "S1" "S2" "")] rfl).1
  ⟨rfl, rfl, h.elim fun subN h1 => h1.elim fun subE h2 => h2.elim fun modE h3 =>
    ⟨subN, subE, modE, h3.1, h3.2.1, h3.2.2.1⟩⟩

/-! ## `flattenGraph`: nested graphs without `Start` or `End` -/

theorem lastOfType_eq_none_iff (t : NodeType) (nodes : List (Option Node)) :
    lastOfType t nodes = none ↔ countType t nodes = 0 := by
  induction nodes with
  | nil => simp [lastOfType, countType]
  | cons x rest ih =>
    cases x with
    | none => rw [lastOfType, countType, ih]
    | some a =>
      rw [lastOfType, countType]
      cases hr : lastOfType t rest with
      | some m =>
        have : countType t rest ≠ 0 := fun hc => by
          rw [ih.2 hc] at hr
          cases hr
        constructor
        · intro hc
          cases hc
        · intro hc
          omega
      | none =>
        rw [ih.1 hr]
        by_cases ha : a.Typ = t <;> simp [ha]

/-- On a successful run of `flattenGraph` the scan has found a `Start` and an `End` node in
every nested graph, at every depth. -/
theorem flattenGraph_startEndFound (o : MapOrder) (gs : Option GraphSchema) (ns : List Node)
    (es : List Edge) (h : flattenGraph o gs = some (ns, es)) :
    ∀ n ∈ nodesDeep gs, StartEndFound n := by
  refine (flatten_run_induction o
    (fun gs _ _ => ∀ n ∈ nodesDeep gs, StartEndFound n)
    (fun nodes A _ => none ∉ A → ∀ n ∈ nodesDeepList nodes, StartEndFound n)
    (fun node sn _ => (none ∉ sn → StartEndFound node) ∧
      ∀ n ∈ nodesDeepNode node, StartEndFound n)
    ?_ ?_ ?_ ?_ ?_ ?_).1 gs ns es h
  · intro n hn; simp [nodesDeep] at hn
  · intro nodes edges A B ns es _ hPL hd n hn
    rw [nodesDeep_some] at hn
    obtain ⟨A', B', rfl, _, _, _⟩ := deduplicate_eq_some o A _ ns es hd
    exact hPL (by simp) n hn
  · intro _ n hn; simp [nodesDeepList] at hn
  · intro node rest A B hleaf _ hPL hnone n hn
    obtain ⟨m, hm, hm'⟩ := (mem_nodesDeepList _ n).1 hn
    have hA : none ∉ A := fun hc => hnone (List.mem_cons_of_mem _ hc)
    rcases List.mem_cons.1 hm with h1 | h1
    · obtain rfl : m = node := Option.some.inj h1
      rcases hm' with rfl | h2
      · intro nodes edges hg
        rw [hleaf] at hg
        cases hg
      · rw [nodesDeepNode_eq, hleaf] at h2
        simp [nodesDeep] at h2
    · exact hPL hA n ((mem_nodesDeepList rest n).2 ⟨m, h1, hm'⟩)
  · intro node rest sn se A B _ _ hPN _ hPL hnone n hn
    obtain ⟨m, hm, hm'⟩ := (mem_nodesDeepList _ n).1 hn
    have hsn : none ∉ sn := fun hc => hnone (List.mem_append_left _ hc)
    have hA : none ∉ A := fun hc => hnone (List.mem_append_right _ hc)
    rcases List.mem_cons.1 hm with h1 | h1
    · obtain rfl : m = node := Option.some.inj h1
      rcases hm' with rfl | h2
      · exact hPN.1 hsn
      · exact hPN.2 n h2
    · exact hPL hA n ((mem_nodesDeepList rest n).2 ⟨m, h1, hm'⟩)
  · intro k nm t c nodes edges s e subN subE modE hs _ hPG _
    refine ⟨fun hnone => ?_, fun n hn => ?_⟩
    · intro nodes' edges' hg
      have hg' : some (GraphSchema.mk nodes edges) = some (GraphSchema.mk nodes' edges') := hg
      simp only [Option.some.injEq, GraphSchema.mk.injEq] at hg'
      obtain ⟨rfl, rfl⟩ := hg'
      cases s with
      | none => exact absurd (by simp) hnone
      | some s' =>
        cases e with
        | none => exact absurd (by simp) hnone
        | some e' => exact ⟨s', e', hs⟩
    · rw [nodesDeepNode_eq] at hn
      exact hPG n hn

/-- A nested graph, at any depth, without a node of type `Start` or without a node of type
`End` makes `flattenGraph` panic. -/
theorem flattenGraph_malformed_none (o : MapOrder) (G : GraphSchema) (n : Node)
    (nodes : List (Option Node)) (edges : List (Option Edge))
    (hn : n ∈ nodesDeep (some G)) (hg : n.GraphSchema = some (.mk nodes edges))
    (hm : countType NodeTypeOfStart nodes = 0 ∨ countType NodeTypeOfEnd nodes = 0) :
    flattenGraph o (some G) = none := by
  cases h : flattenGraph o (some G) with
  | none => rfl
  | some r =>
    obtain ⟨ns, es⟩ := r
    obtain ⟨s, e, hs⟩ := flattenGraph_startEndFound o (some G) ns es h n hn nodes edges hg
    obtain ⟨h1, h2⟩ := scanStartEnd_last nodes none none _ _ hs
    rcases hm with hm | hm
    · rw [(lastOfType_eq_none_iff _ nodes).2 hm] at h1
      cases h1
    · rw [(lastOfType_eq_none_iff _ nodes).2 hm] at h2
      cases h2

/-- C13 (as amended). A malformed nested graph makes the call fail, by a panic: for every
graph that contains, at any depth, a composite node whose nested graph has no node of type
`Start` or no node of type `End`, `flattenGraph` does not return a node list and an edge
list; the call ends in the run-time panic of a nil-pointer dereference, which is what the
caller observes. -/
theorem flattenGraph_malformed_panics (o : MapOrder) (G : GraphSchema) (n : Node)
    (nodes : List (Option Node)) (edges : List (Option Edge))
    (hn : n ∈ nodesDeep (some G)) (hg : n.GraphSchema = some (.mk nodes edges))
    (hm : countType NodeTypeOfStart nodes = 0 ∨ countType NodeTypeOfEnd nodes = 0) :
    flattenGraph o (some G) = none ∧
      flattenGraphOutcome o (some G) = Except.error Failure.nilDereference := by
  have h := flattenGraph_malformed_none o G n nodes edges hn hg hm
  exact ⟨h, by simp only [flattenGraphOutcome, h]⟩

/-- C13 (the claim as stated fails). The nested graph of `missingStartGraph` has no `Start`
node. `processNestedGraph` returns all the same, with a nil entry in its node list, and
the caller of `flattenGraph` observes, under every map iteration order, the panic of a
nil-pointer dereference and not the report of a malformed graph. -/
theorem flattenGraph_malformed_not_reported :
    countType NodeTypeOfStart [some nodeL, some nodeE] = 0 ∧
    processNestedGraph MapOrder.insertion missingStartNode =
      some ([some nodeL, some nodeE, none, some nodeE], [some (Edge.mk "L" "E" "")]) ∧
    ∀ o : MapOrder,
      flattenGraphOutcome o (some missingStartGraph) = Except.error Failure.nilDereference ∧
      flattenGraphOutcome o (some missingStartGraph) ≠ Except.error Failure.malformedGraph := by
  refine ⟨by decide, rfl, fun o => ?_⟩
  have h : flattenGraph o (some missingStartGraph) = none :=
    flattenGraph_malformed_none o missingStartGraph missingStartNode
      [some nodeL, some nodeE] [some (Edge.mk "L" "E" "")]
      (by simp [missingStartGraph, nodesDeep, nodesDeepList]) rfl (Or.inl (by decide))
  have h' : flattenGraphOutcome o (some missingStartGraph) =
      Except.error Failure.nilDereference := by
    simp only [flattenGraphOutcome, h]
  refine ⟨h', ?_⟩
  rw [h']
  intro hc
  cases hc

/-- C13 (witness). `missingStartGraph` contains the composite `missingStartNode`, whose
nested graph has no `Start` node; `flattenGraph` panics on it. -/
theorem flattenGraph_malformed_panics_witness :
    missingStartNode ∈ nodesDeep (some missingStartGraph) ∧
    missingStartNode.GraphSchema =
      some (.mk [some nodeL, some nodeE] [some (Edge.mk "L" "E" "")]) ∧
    countType NodeTypeOfStart [some nodeL, some nodeE] = 0 ∧
    flattenGraph MapOrder.insertion (some missingStartGraph) = none ∧
    flattenGraphOutcome MapOrder.insertion (some missingStartGraph) =
      Except.error Failure.nilDereference :=
  have hn : missingStartNode ∈ nodesDeep (some missingStartGraph) := by
    simp [missingStartGraph, nodesDeep, nodesDeepList]
  ⟨hn, rfl, by decide,
    flattenGraph_malformed_panics MapOrder.insertion missingStartGraph missingStartNode
      [some nodeL, some nodeE] [some (Edge.mk "L" "E" "")] hn rfl (Or.inl (by decide))⟩

/-! ## `flattenGraph` returns on well-formed input -/

theorem safeNodes_not_none (nodes : List (Option Node)) (h : SafeNodes nodes) :
    none ∉ nodes := by
  induction nodes with
  | nil => simp
  | cons x rest ih =>
    cases x with
    | none => rw [SafeNodes] at h; exact h.elim
    | some a =>
      rw [SafeNodes] at h
      intro hc
      exact ih h.2 (by simpa using hc)

theorem scanStartEnd_total (nodes : List (Option Node)) (h : none ∉ nodes) :
    ∀ s0 e0, ∃ s e, scanStartEnd s0 e0 nodes = some (s, e) := by
  induction nodes with
  | nil => intro s0 e0; exact ⟨s0, e0, rfl⟩
  | cons x rest ih =>
    intro s0 e0
    cases x with
    | none => exact absurd (List.mem_cons_self _ _) h
    | some a =>
      have hr : none ∉ rest := fun hc => h (List.mem_cons_of_mem _ hc)
      simp only [scanStartEnd]
      by_cases h1 : a.Typ = NodeTypeOfStart
      · simp only [h1, if_true]
        exact ih hr _ _
      · simp only [h1, if_false]
        by_cases h2 : a.Typ = NodeTypeOfEnd
        · simp only [h2, if_true]
          exact ih hr _ _
        · simp only [h2, if_false]
          exact ih hr _ _

theorem rewireLoop_total (k : String) (s e : Node) (edges : List (Option Edge))
    (h : none ∉ edges) :
    ∀ acc, ∃ modE, rewireLoop k (some s) (some e) acc edges = some modE := by
  induction edges with
  | nil => intro acc; exact ⟨acc, rfl⟩
  | cons x rest ih =>
    intro acc
    cases x with
    | none => exact absurd (List.mem_cons_self _ _) h
    | some ed =>
      have hr : none ∉ rest := fun hc => h (List.mem_cons_of_mem _ hc)
      have h1 : ∃ m1, rewireIn k (some s) ed acc = some m1 := by
        unfold rewireIn
        by_cases hk : ed.TargetNodeKey = k
        · exact ⟨_, by rw [if_pos hk]⟩
        · exact ⟨_, by rw [if_neg hk]⟩
      obtain ⟨m1, h1⟩ := h1
      have h2 : ∃ m2, rewireOut k (some e) ed m1 = some m2 := by
        unfold rewireOut
        by_cases hk : ed.SourceNodeKey = k
        · exact ⟨_, by rw [if_pos hk]⟩
        · exact ⟨_, by rw [if_neg hk]⟩
      obtain ⟨m2, h2⟩ := h2
      obtain ⟨modE, hm⟩ := ih hr m2
      exact ⟨modE, by simp only [rewireLoop, h1, h2]; exact hm⟩

theorem not_mem_map_some {α : Type} (l : List α) : none ∉ l.map some := by
  simp

theorem flattenGraph_of_loop (o : MapOrder) (nodes : List (Option Node))
    (edges : List (Option Edge)) (A : List (Option Node)) (B : List (Option Edge))
    (hl : flattenLoop o [] [] nodes = some (A, B)) (hA : none ∉ A) (hB : none ∉ B)
    (he : none ∉ edges) :
    ∃ ns es, flattenGraph o (some (.mk nodes edges)) = some (ns, es) := by
  obtain ⟨A', rfl⟩ := eq_map_some_of_not_mem A hA
  obtain ⟨E', hE'⟩ := eq_map_some_of_not_mem (B ++ edges) (by
    intro hc
    rcases List.mem_append.1 hc with h1 | h1
    · exact hB h1
    · exact he h1)
  refine ⟨o.nodeOrder (dedupVals Node.Key A'), o.edgeOrder (dedupVals edgeKey E'), ?_⟩
  rw [flattenGraph_some, hl]
  simp only
  rw [hE']
  exact deduplicate_map_some o A' E'

/-- On safe input the three functions return, and what the loop and `processNestedGraph`
return holds no nil entry. -/
theorem flatten_total (o : MapOrder) :
    (∀ n : Node, SafeNode n → n.GraphSchema.isSome →
      ∃ sn se, processNestedGraph o n = some (sn, se) ∧ none ∉ sn ∧ none ∉ se) ∧
    (∀ nodes : List (Option Node), SafeNodes nodes →
      ∃ A B, flattenLoop o [] [] nodes = some (A, B) ∧ none ∉ A ∧ none ∉ B) := by
  have stepG : ∀ (nodes : List (Option Node)) (edges : List (Option Edge)),
      (SafeNodes nodes → ∃ A B, flattenLoop o [] [] nodes = some (A, B) ∧ none ∉ A ∧ none ∉ B) →
      none ∉ edges → SafeNodes nodes →
      ∃ ns es, flattenGraph o (some (.mk nodes edges)) = some (ns, es) := by
    intro nodes edges ih he hs
    obtain ⟨A, B, hl, hA, hB⟩ := ih hs
    exact flattenGraph_of_loop o nodes edges A B hl hA hB he
  have stepN : ∀ (k nm : String) (t : NodeType) (c : Option ComponentSchema)
      (gs : Option GraphSchema),
      (∀ g, gs = some g → (none ∉ g.Edges → SafeNodes g.Nodes →
        ∃ ns es, flattenGraph o (some g) = some (ns, es))) →
      SafeNode (.mk k nm t c gs) → (Node.mk k nm t c gs).GraphSchema.isSome →
      ∃ sn se, processNestedGraph o (.mk k nm t c gs) = some (sn, se) ∧
        none ∉ sn ∧ none ∉ se := by
    intro k nm t c gs ih hsafe hcomp
    cases gs with
    | none => simp [Node.GraphSchema] at hcomp
    | some g =>
      obtain ⟨nodes, edges⟩ := g
      rw [SafeNode, SafeNested] at hsafe
      obtain ⟨hcs, hce, hedges, hnodes⟩ := hsafe
      obtain ⟨subN, subE, hf⟩ := ih _ rfl hedges hnodes
      obtain ⟨s, e, hs⟩ := scanStartEnd_total nodes (safeNodes_not_none nodes hnodes) none none
      obtain ⟨h1, h2⟩ := scanStartEnd_last nodes none none s e hs
      cases hls : lastOfType NodeTypeOfStart nodes with
      | none =>
        have := (lastOfType_eq_none_iff _ nodes).1 hls
        omega
      | some s' =>
        cases hle : lastOfType NodeTypeOfEnd nodes with
        | none =>
          have := (lastOfType_eq_none_iff _ nodes).1 hle
          omega
        | some e' =>
          rw [hls] at h1
          rw [hle] at h2
          simp only at h1 h2
          subst h1 h2
          obtain ⟨modE, hr⟩ := rewireLoop_total k s' e' edges hedges []
          refine ⟨subN.map some ++ [some s', some e'], subE.map some ++ modE.map some,
            ?_, ?_, ?_⟩
          · rw [processNestedGraph_some, hs, hf]
            simp only [hr]
          · simp
          · simp
  have stepL : ∀ (x : Option Node) (rest : List (Option Node)),
      (∀ n, x = some n → SafeNode n → n.GraphSchema.isSome →
        ∃ sn se, processNestedGraph o n = some (sn, se) ∧ none ∉ sn ∧ none ∉ se) →
      (SafeNodes rest →
        ∃ A B, flattenLoop o [] [] rest = some (A, B) ∧ none ∉ A ∧ none ∉ B) →
      SafeNodes (x :: rest) →
      ∃ A B, flattenLoop o [] [] (x :: rest) = some (A, B) ∧ none ∉ A ∧ none ∉ B := by
    intro x rest ihx ihrest hsafe
    cases x with
    | none => rw [SafeNodes] at hsafe; exact hsafe.elim
    | some node =>
      rw [SafeNodes] at hsafe
      obtain ⟨A, B, hl, hA, hB⟩ := ihrest hsafe.2
      by_cases hc : node.GraphSchema.isSome
      · obtain ⟨sn, se, hp, hsn, hse⟩ := ihx node rfl hsafe.1 hc
        refine ⟨sn ++ A, se ++ B, ?_, ?_, ?_⟩
        · rw [flattenLoop_composite o node rest hc, hp, hl]; rfl
        · intro h; exact (List.mem_append.1 h).elim hsn hA
        · intro h; exact (List.mem_append.1 h).elim hse hB
      · have hc' : node.GraphSchema = none := by
          cases hg : node.GraphSchema with
          | none => rfl
          | some g => simp [hg] at hc
        refine ⟨some node :: A, B, ?_, ?_, hB⟩
        · rw [flattenLoop_leaf o node rest hc', hl]; rfl
        · intro h
          rcases List.mem_cons.1 h with h1 | h1
          · cases h1
          · exact hA h1
  have node : ∀ n : Node, SafeNode n → n.GraphSchema.isSome →
      ∃ sn se, processNestedGraph o n = some (sn, se) ∧ none ∉ sn ∧ none ∉ se := by
    intro n
    exact @Node.rec
      (fun n => SafeNode n → n.GraphSchema.isSome →
        ∃ sn se, processNestedGraph o n = some (sn, se) ∧ none ∉ sn ∧ none ∉ se)
      (fun g => none ∉ g.Edges → SafeNodes g.Nodes →
        ∃ ns es, flattenGraph o (some g) = some (ns, es))
      (fun gs => ∀ g, gs = some g → (none ∉ g.Edges → SafeNodes g.Nodes →
        ∃ ns es, flattenGraph o (some g) = some (ns, es)))
      (fun nodes => SafeNodes nodes →
        ∃ A B, flattenLoop o [] [] nodes = some (A, B) ∧ none ∉ A ∧ none ∉ B)
      (fun x => ∀ n, x = some n → SafeNode n → n.GraphSchema.isSome →
        ∃ sn se, processNestedGraph o n = some (sn, se) ∧ none ∉ sn ∧ none ∉ se)
      stepN
      (fun nodes edges ih he hs => stepG nodes edges ih he hs)
      (fun _ h => nomatch h)
      (fun _ ih _ hg => by cases hg; exact ih)
      (fun _ => ⟨[], [], flattenLoop_nil o [] [], by simp, by simp⟩)
      stepL
      (fun _ h => nomatch h)
      (fun _ ih _ hm => by cases hm; exact ih) n
  refine ⟨node, fun nodes => ?_⟩
  induction nodes with
  | nil => exact fun _ => ⟨[], [], flattenLoop_nil o [] [], by simp, by simp⟩
  | cons x rest ih => exact stepL x rest (fun n _ => node n) ih

/-- C16. Well-formed input never hits the failure branch: when all node and edge entries of
a graph, at every depth, are non-nil and every nested graph, at every depth, has at least
one node of type `Start` and at least one of type `End`, `flattenGraph` returns a result,
whatever the map iteration order. -/
theorem flattenGraph_returns_on_safe (o : MapOrder) (G : GraphSchema) (h : SafeGraph G) :
    ∃ ns es, flattenGraph o (some G) = some (ns, es) := by
  obtain ⟨nodes, edges⟩ := G
  obtain ⟨he, hn⟩ := h
  obtain ⟨A, B, hl, hA, hB⟩ := (flatten_total o).2 nodes hn
  exact flattenGraph_of_loop o nodes edges A B hl hA hB he

/-- C16 (witness). The substitution scenario is safe, and `flattenGraph` returns on it. -/
theorem flattenGraph_returns_on_safe_witness :
    SafeGraph scenarioGraph ∧
    ∃ ns es, flattenGraph MapOrder.reversed (some scenarioGraph) = some (ns, es) :=
  have hs : SafeGraph scenarioGraph := by
    refine ⟨by simp [scenarioGraph, GraphSchema.Edges], ?_⟩
    change SafeNodes [some nodeA, some nodeC, some nodeB]
    simp only [SafeNodes, SafeNode, SafeNested, nodeA, nodeB, nodeC, scenarioNested, nodeS,
      nodeL, nodeE, and_true, true_and]
    refine ⟨by decide, by decide, by simp⟩
  ⟨hs, flattenGraph_returns_on_safe MapOrder.reversed scenarioGraph hs⟩

/-! ## `flattenGraph`: where the returned edges come from -/

theorem deduplicate_edge_mem (o : MapOrder) (A : List (Option Node)) (B : List (Option Edge))
    (ns : List Node) (es : List Edge) (h : deduplicate o A B = some (ns, es)) (e : Edge)
    (he : e ∈ es) : some e ∈ B := by
  obtain ⟨A', B', rfl, rfl, rfl, rfl⟩ := deduplicate_eq_some o A B ns es h
  exact List.mem_map_of_mem some (dedupVals_subset edgeKey B' e ((o.mem_edgeOrder _ e).1 he))

theorem nodesDeepList_cons_mem (x : Option Node) (rest : List (Option Node)) (n : Node)
    (h : n ∈ nodesDeepList rest) : n ∈ nodesDeepList (x :: rest) := by
  obtain ⟨m, hm, hm'⟩ := (mem_nodesDeepList rest n).1 h
  exact (mem_nodesDeepList _ n).2 ⟨m, List.mem_cons_of_mem _ hm, hm'⟩

theorem nodesDeepList_head_mem (node : Node) (rest : List (Option Node)) (n : Node)
    (h : n = node ∨ n ∈ nodesDeepNode node) : n ∈ nodesDeepList (some node :: rest) :=
  (mem_nodesDeepList _ n).2 ⟨node, List.mem_cons_self _ _, h⟩

/-- When no nested graph has an edge that names its own composite node, every edge that a
successful run of `flattenGraph` returns is an entry of the graph's own edge list or of the
edge list of a nested graph. -/
theorem flattenGraph_edges_from_graph (o : MapOrder) (gs : Option GraphSchema)
    (ns : List Node) (es : List Edge) (h : flattenGraph o gs = some (ns, es)) :
    (∀ n ∈ nodesDeep gs, NoSelfEdge n) →
      ∀ e ∈ es, (∃ nodes edges, gs = some (.mk nodes edges) ∧ some e ∈ edges) ∨
        ∃ n ∈ nodesDeep gs, NestedEdge n e := by
  refine (flatten_run_induction o
    (fun gs _ es => (∀ n ∈ nodesDeep gs, NoSelfEdge n) →
      ∀ e ∈ es, (∃ nodes edges, gs = some (.mk nodes edges) ∧ some e ∈ edges) ∨
        ∃ n ∈ nodesDeep gs, NestedEdge n e)
    (fun nodes _ B => (∀ n ∈ nodesDeepList nodes, NoSelfEdge n) →
      ∀ e, some e ∈ B → ∃ n ∈ nodesDeepList nodes, NestedEdge n e)
    (fun node _ se => NoSelfEdge node → (∀ n ∈ nodesDeepNode node, NoSelfEdge n) →
      ∀ e, some e ∈ se → ∃ n, (n = node ∨ n ∈ nodesDeepNode node) ∧ NestedEdge n e)
    ?_ ?_ ?_ ?_ ?_ ?_).1 gs ns es h
  · intro _ e he; simp at he
  · intro nodes edges A B ns es _ hPL hd hno e he
    rw [nodesDeep_some] at hno ⊢
    rcases List.mem_append.1 (deduplicate_edge_mem o A _ ns es hd e he) with h1 | h1
    · exact Or.inr (hPL hno e h1)
    · exact Or.inl ⟨nodes, edges, rfl, h1⟩
  · intro _ e he; simp at he
  · intro node rest A B _ _ hPL hno e he
    obtain ⟨n, hn, hne⟩ := hPL (fun n hn => hno n (nodesDeepList_cons_mem _ rest n hn)) e he
    exact ⟨n, nodesDeepList_cons_mem _ rest n hn, hne⟩
  · intro node rest sn se A B _ _ hPN _ hPL hno e he
    rcases List.mem_append.1 he with h1 | h1
    · obtain ⟨n, hn, hne⟩ := hPN (hno node (nodesDeepList_head_mem node rest node (Or.inl rfl)))
        (fun n hn => hno n (nodesDeepList_head_mem node rest n (Or.inr hn))) e h1
      exact ⟨n, nodesDeepList_head_mem node rest n hn, hne⟩
    · obtain ⟨n, hn, hne⟩ := hPL (fun n hn => hno n (nodesDeepList_cons_mem _ rest n hn)) e h1
      exact ⟨n, nodesDeepList_cons_mem _ rest n hn, hne⟩
  · intro k nm t c nodes edges s e subN subE modE _ _ hPG hr hself hno x hx
    have hdeep : nodesDeepNode (.mk k nm t c (some (.mk nodes edges))) =
        nodesDeep (some (.mk nodes edges)) := nodesDeepNode_eq _
    rw [hdeep] at hno ⊢
    rcases List.mem_append.1 hx with h1 | h1
    · have hx' : x ∈ subE := by simpa using h1
      rcases hPG hno x hx' with ⟨nodes', edges', hg, hm⟩ | ⟨n, hn, hne⟩
      · exact ⟨_, Or.inl rfl, nodes', edges', hg, hm⟩
      · exact ⟨n, Or.inr hn, hne⟩
    · have hx' : x ∈ modE := by simpa using h1
      rcases (rewireLoop_mem k s e edges [] modE hr x).1 hx' with h2 | ⟨ed, _, hed, hk, _⟩ |
        ⟨ed, _, hed, hk, _⟩
      · simp at h2
      · exact absurd hk (hself nodes edges rfl ed hed).2
      · exact absurd hk (hself nodes edges rfl ed hed).1

/-- C17. No edge is created unless a nested edge names its own composite: for every graph
on which `flattenGraph` returns and in which no nested graph, at any depth, has an edge
whose source or target is the key of its enclosing composite node, every returned edge is
an entry of the graph's own edge list or of the edge list of a nested graph at some depth;
in particular it has the (source, target) of such an edge. -/
theorem flattenGraph_creates_no_edge (o : MapOrder) (G : GraphSchema) (ns : List Node)
    (es : List Edge) (h : flattenGraph o (some G) = some (ns, es))
    (hno : ∀ n ∈ nodesDeep (some G), NoSelfEdge n) :
    ∀ e ∈ es,
      (some e ∈ G.Edges ∨ ∃ n ∈ nodesDeep (some G), NestedEdge n e) ∧
      ((∃ e', some e' ∈ G.Edges ∧ e'.SourceNodeKey = e.SourceNodeKey ∧
          e'.TargetNodeKey = e.TargetNodeKey) ∨
        ∃ n ∈ nodesDeep (some G), ∃ e', NestedEdge n e' ∧
          e'.SourceNodeKey = e.SourceNodeKey ∧ e'.TargetNodeKey = e.TargetNodeKey) := by
  intro e he
  have key : some e ∈ G.Edges ∨ ∃ n ∈ nodesDeep (some G), NestedEdge n e := by
    rcases flattenGraph_edges_from_graph o (some G) ns es h hno e he with
      ⟨nodes, edges, hg, hm⟩ | h2
    · left
      cases hg
      exact hm
    · exact Or.inr h2
  refine ⟨key, ?_⟩
  rcases key with h1 | ⟨n, hn, hne⟩
  · exact Or.inl ⟨e, h1, rfl, rfl⟩
  · exact Or.inr ⟨n, hn, e, hne, rfl, rfl⟩

/-- C17 (witness). In the substitution scenario no nested edge names the composite `C`;
the returned edges are the two nested edges and the two top-level edges. -/
theorem flattenGraph_creates_no_edge_witness :
    flattenGraph MapOrder.insertion (some scenarioGraph) =
      some ([nodeA, nodeS, nodeL, nodeE, nodeB],
        [Edge.mk "S" "L" "", Edge.mk "L" "E" "", Edge.mk "A" "C" "", Edge.mk "C" "B" ""]) ∧
    (∀ n ∈ nodesDeep (some scenarioGraph), NoSelfEdge n) ∧
    (some (Edge.mk "S" "L" "") ∈ scenarioGraph.Edges ∨
      ∃ n ∈ nodesDeep (some scenarioGraph), NestedEdge n (Edge.mk "S" "L" "")) :=
  have hno : ∀ n ∈ nodesDeep (some scenarioGraph), NoSelfEdge n := by
    intro n hn nodes edges hg e he
    simp only [scenarioGraph, nodesDeep, nodesDeepList, nodesDeepNode, nodeA, nodeB, nodeC,
      scenarioNested, nodeS, nodeL, nodeE, List.append_nil, List.nil_append, List.cons_append,
      List.mem_cons, List.not_mem_nil, or_false] at hn
    rcases hn with rfl | rfl | rfl | rfl | rfl | rfl
    · cases hg
    · simp only [Node.GraphSchema, Option.some.injEq, GraphSchema.mk.injEq] at hg
      obtain ⟨rfl, rfl⟩ := hg
      simp only [List.mem_cons, Option.some.injEq, List.not_mem_nil, or_false] at he
      rcases he with rfl | rfl <;> exact ⟨by decide, by decide⟩
    · cases hg
    · cases hg
    · cases hg
    · cases hg
  ⟨rfl, hno,
    (flattenGraph_creates_no_edge MapOrder.insertion scenarioGraph
      [nodeA, nodeS, nodeL, nodeE, nodeB]
      [Edge.mk "S" "L" "", Edge.mk "L" "E" "", Edge.mk "A" "C" "", Edge.mk "C" "B" ""]
      rfl hno (Edge.mk "S" "L" "") (List.mem_cons_self _ _)).1⟩

/-! ## `flattenGraph`: which collected node is returned -/

theorem sameLast_refl {α : Type} (key : α → String) (A : List α) : SameLast key A A :=
  ⟨fun _ => Iff.rfl, fun _ => Iff.rfl⟩

theorem sameLast_append {α : Type} (key : α → String) (A C B D : List α)
    (h1 : SameLast key A C) (h2 : SameLast key B D) : SameLast key (A ++ B) (C ++ D) := by
  refine ⟨fun k => ?_, fun x => ?_⟩
  · simp only [List.map_append, List.mem_append, h1.1 k, h2.1 k]
  · rw [lastWins_append, lastWins_append, h1.2 x, h2.2 x]
    have : (∀ y ∈ B, key y ≠ key x) ↔ (∀ y ∈ D, key y ≠ key x) := by
      constructor
      · intro h y hy hc
        obtain ⟨z, hz, hzk⟩ := List.mem_map.1 ((h2.1 (key y)).2 (List.mem_map_of_mem key hy))
        exact h z hz (hzk.trans hc)
      · intro h y hy hc
        obtain ⟨z, hz, hzk⟩ := List.mem_map.1 ((h2.1 (key y)).1 (List.mem_map_of_mem key hy))
        exact h z hz (hzk.trans hc)
    rw [this]

theorem sameLast_of_dedup {α : Type} (key : α → String) (A C : List α)
    (hn : (A.map key).Nodup) (h : ∀ x, x ∈ A ↔ LastWins key C x) : SameLast key A C := by
  refine ⟨fun k => ?_, fun x => ?_⟩
  · simp only [List.mem_map]
    constructor
    · rintro ⟨x, hx, rfl⟩
      exact ⟨x, lastWins_mem key C x ((h x).1 hx), rfl⟩
    · rintro ⟨y, hy, rfl⟩
      obtain ⟨x, hx, hxy⟩ := lastWins_exists key C y hy
      exact ⟨x, (h x).2 hx, hxy⟩
  · rw [lastWins_of_nodup key A hn, h x]

theorem collected_some (nodes : List (Option Node)) (edges : List (Option Edge)) :
    collected (some (.mk nodes edges)) = collectedList nodes := by
  rw [collected]

theorem collectedList_cons_some (n : Node) (rest : List (Option Node)) :
    collectedList (some n :: rest) = collectedNode n ++ collectedList rest := by
  rw [collectedList]

theorem collectedNode_leaf (n : Node) (h : n.GraphSchema = none) : collectedNode n = [n] := by
  cases n with
  | mk k nm t c gs =>
    have : gs = none := h
    subst this
    rw [collectedNode]

theorem collectedNode_composite (k nm : String) (t : NodeType) (c : Option ComponentSchema)
    (nodes : List (Option Node)) (edges : List (Option Edge)) :
    collectedNode (.mk k nm t c (some (.mk nodes edges))) =
      collectedList nodes ++ (lastOfType NodeTypeOfStart nodes).toList ++
        (lastOfType NodeTypeOfEnd nodes).toList := by
  rw [collectedNode]

/-- The node list that a successful run of `flattenGraph` returns holds exactly the nodes
that are the last collected node with their key. -/
theorem flattenGraph_nodes_lastWins (o : MapOrder) (gs : Option GraphSchema) (ns : List Node)
    (es : List Edge) (h : flattenGraph o gs = some (ns, es)) :
    ∀ n, n ∈ ns ↔ LastWins Node.Key (collected gs) n := by
  refine (flatten_run_induction o
    (fun gs ns _ => ∀ n, n ∈ ns ↔ LastWins Node.Key (collected gs) n)
    (fun nodes A _ => ∀ A' : List Node, A = A'.map some →
      SameLast Node.Key A' (collectedList nodes))
    (fun node sn _ => ∀ sn' : List Node, sn = sn'.map some →
      SameLast Node.Key sn' (collectedNode node))
    ?_ ?_ ?_ ?_ ?_ ?_).1 gs ns es h
  · intro n
    simp [collected, LastWins]
  · intro nodes edges A B ns es _ hPL hd n
    obtain ⟨A', B', rfl, _, rfl, _⟩ := deduplicate_eq_some o A _ ns es hd
    rw [o.mem_nodeOrder, mem_dedupVals, collected_some]
    exact (hPL A' rfl).2 n
  · intro A' hA'
    have : A' = [] := by
      cases A' with
      | nil => rfl
      | cons a l => cases hA'
    subst this
    exact sameLast_refl _ _
  · intro node rest A B hleaf _ hPL T hT
    cases T with
    | nil => cases hT
    | cons a T' =>
      simp only [List.map_cons, List.cons.injEq, Option.some.injEq] at hT
      obtain ⟨rfl, hT'⟩ := hT
      rw [collectedList_cons_some, collectedNode_leaf node hleaf]
      exact sameLast_append Node.Key [node] [node] T' _ (sameLast_refl _ _) (hPL T' hT')
  · intro node rest sn se A B _ _ hPN _ hPL T hT
    obtain ⟨T1, T2, rfl, h1, h2⟩ := List.append_eq_map_iff.1 hT
    rw [collectedList_cons_some]
    exact sameLast_append Node.Key T1 _ T2 _ (hPN T1 h1.symm) (hPL T2 h2.symm)
  · intro k nm t c nodes edges s e subN subE modE hs hf hPG _ T hT
    obtain ⟨T1, T2, rfl, h1, h2⟩ := List.append_eq_map_iff.1 hT
    obtain ⟨hl1, hl2⟩ := scanStartEnd_last nodes none none s e hs
    have hs' : s = lastOfType NodeTypeOfStart nodes := by
      rw [hl1]; cases lastOfType NodeTypeOfStart nodes <;> rfl
    have he' : e = lastOfType NodeTypeOfEnd nodes := by
      rw [hl2]; cases lastOfType NodeTypeOfEnd nodes <;> rfl
    have hT1 : T1 = subN := by
      have : T1.map some = subN.map some := h1
      exact List.map_injective_iff.2 (Option.some_injective _) this
    subst hT1
    rw [collectedNode_composite, List.append_assoc]
    refine sameLast_append Node.Key T1 _ T2 _ ?_ ?_
    · have hPG' : ∀ n, n ∈ T1 ↔ LastWins Node.Key (collectedList nodes) n := by
        intro n
        rw [← collected_some nodes edges]
        exact hPG n
      exact sameLast_of_dedup Node.Key T1 _ (flattenGraph_nodup o _ T1 subE hf).1 hPG'
    · cases T2 with
      | nil => cases h2
      | cons a T2' =>
        cases T2' with
        | nil => cases h2
        | cons b T2'' =>
          cases T2'' with
          | cons _ _ => cases h2
          | nil =>
            simp only [List.map_cons, List.map_nil, List.cons.injEq, and_true] at h2
            rw [← hs', ← he', ← h2.1, ← h2.2]
            exact sameLast_refl _ _

/-- Every leaf of the graph, at any depth, is among the nodes collected on a successful
run. -/
theorem flattenGraph_leaf_collected (o : MapOrder) (gs : Option GraphSchema) (ns : List Node)
    (es : List Edge) (h : flattenGraph o gs = some (ns, es)) :
    ∀ n ∈ nodesDeep gs, n.GraphSchema = none → n ∈ collected gs := by
  refine (flatten_run_induction o
    (fun gs _ _ => ∀ n ∈ nodesDeep gs, n.GraphSchema = none → n ∈ collected gs)
    (fun nodes _ _ => ∀ n ∈ nodesDeepList nodes, n.GraphSchema = none →
      n ∈ collectedList nodes)
    (fun node _ _ => ∀ n ∈ nodesDeepNode node, n.GraphSchema = none → n ∈ collectedNode node)
    ?_ ?_ ?_ ?_ ?_ ?_).1 gs ns es h
  · intro n hn; simp [nodesDeep] at hn
  · intro nodes edges A B ns es _ hPL _ n hn hleaf
    rw [nodesDeep_some] at hn
    rw [collected_some]
    exact hPL n hn hleaf
  · intro n hn; simp [nodesDeepList] at hn
  · intro node rest A B hnode _ hPL n hn hleaf
    rw [collectedList_cons_some, collectedNode_leaf node hnode]
    obtain ⟨m, hm, hm'⟩ := (mem_nodesDeepList _ n).1 hn
    rcases List.mem_cons.1 hm with h1 | h1
    · obtain rfl : m = node := Option.some.inj h1
      rcases hm' with rfl | h2
      · simp
      · rw [nodesDeepNode_eq, hnode] at h2
        simp [nodesDeep] at h2
    · exact List.mem_append_right _ (hPL n ((mem_nodesDeepList rest n).2 ⟨m, h1, hm'⟩) hleaf)
  · intro node rest sn se A B hnode _ hPN _ hPL n hn hleaf
    rw [collectedList_cons_some]
    obtain ⟨m, hm, hm'⟩ := (mem_nodesDeepList _ n).1 hn
    rcases List.mem_cons.1 hm with h1 | h1
    · obtain rfl : m = node := Option.some.inj h1
      rcases hm' with rfl | h2
      · rw [hleaf] at hnode
        simp at hnode
      · exact List.mem_append_left _ (hPN n h2 hleaf)
    · exact List.mem_append_right _ (hPL n ((mem_nodesDeepList rest n).2 ⟨m, h1, hm'⟩) hleaf)
  · intro k nm t c nodes edges s e subN subE modE _ _ hPG _ n hn hleaf
    rw [nodesDeepNode_eq] at hn
    rw [collectedNode_composite, List.append_assoc]
    have := hPG n hn hleaf
    rw [collected_some] at this
    exact List.mem_append_left _ this

/-- C5 (as amended). Last write wins among the collected nodes: for every graph on which
`flattenGraph` returns a result, every leaf that occurs at any nesting depth is collected;
its key is carried by a returned node, namely the last collected node with that key; a node
is returned exactly when it is the last collected node with its key (the collected nodes
split as `l1 ++ m :: l2` with no node of `l2` carrying the key of `m`), so the leaf itself,
unchanged, is an element of the returned node list exactly when no node collected after it
has its key, and in particular whenever every node of the graph, at any depth, that has the
leaf's key is that leaf. -/
theorem flattenGraph_leaf_survives (o : MapOrder) (G : GraphSchema) (ns : List Node)
    (es : List Edge) (h : flattenGraph o (some G) = some (ns, es)) (n : Node)
    (hn : n ∈ nodesDeep (some G)) (hleaf : n.GraphSchema = none) :
    n ∈ collected (some G) ∧
    (∃ n' ∈ ns, n'.Key = n.Key ∧
      ∃ l1 l2, collected (some G) = l1 ++ n' :: l2 ∧ ∀ x ∈ l2, x.Key ≠ n.Key) ∧
    (∀ m, m ∈ ns ↔
      ∃ l1 l2, collected (some G) = l1 ++ m :: l2 ∧ ∀ x ∈ l2, x.Key ≠ m.Key) ∧
    (n ∈ ns ↔
      ∃ l1 l2, collected (some G) = l1 ++ n :: l2 ∧ ∀ x ∈ l2, x.Key ≠ n.Key) ∧
    ((∀ m ∈ nodesDeep (some G), m.Key = n.Key → m = n) → n ∈ ns) := by
  have hchar : ∀ m, m ∈ ns ↔
      ∃ l1 l2, collected (some G) = l1 ++ m :: l2 ∧ ∀ x ∈ l2, x.Key ≠ m.Key := by
    intro m
    rw [flattenGraph_nodes_lastWins o (some G) ns es h m, lastWins_iff]
  obtain ⟨n', hn', hk⟩ := List.mem_map.1 (flattenGraph_leaf_key o (some G) ns es h n hn hleaf)
  refine ⟨flattenGraph_leaf_collected o (some G) ns es h n hn hleaf, ?_, hchar, hchar n, ?_⟩
  · obtain ⟨l1, l2, h1, h2⟩ := (hchar n').1 hn'
    exact ⟨n', hn', hk, l1, l2, h1, fun x hx => hk ▸ h2 x hx⟩
  · intro huniq
    have := huniq n' (flattenGraph_nodes_from_graph o (some G) ns es h n' hn') hk
    rw [← this]
    exact hn'

/-- C5 (witness). In `shadowGraph` the nested leaf `L` is collected second and the top-level
leaf `L` last. The top-level leaf is the last collected node with key `L` and is returned,
although it shares its key; the nested leaf is followed by a node with its key and is not
returned; the `Start` leaf `S`, collected twice, is the only node with key `S` and is
returned. -/
theorem flattenGraph_leaf_survives_witness :
    flattenGraph MapOrder.insertion (some shadowGraph) =
      some ([nodeS, shadowOuter, nodeE], [Edge.mk "S" "L" "", Edge.mk "L" "E" ""]) ∧
    collected (some shadowGraph) =
      [nodeS, shadowInner, nodeE, nodeS, nodeE, shadowOuter] ∧
    shadowOuter ∈ nodesDeep (some shadowGraph) ∧ shadowOuter.GraphSchema = none ∧
    shadowInner ∈ nodesDeep (some shadowGraph) ∧ shadowInner.GraphSchema = none ∧
    nodeS ∈ nodesDeep (some shadowGraph) ∧ nodeS.GraphSchema = none ∧
    (∃ l1 l2, collected (some shadowGraph) = l1 ++ shadowOuter :: l2 ∧
      ∀ x ∈ l2, x.Key ≠ shadowOuter.Key) ∧
    (¬ ∃ l1 l2, collected (some shadowGraph) = l1 ++ shadowInner :: l2 ∧
      ∀ x ∈ l2, x.Key ≠ shadowInner.Key) ∧
    (∀ m ∈ nodesDeep (some shadowGraph), m.Key = nodeS.Key → m = nodeS) ∧
    nodeS ∈ [nodeS, shadowOuter, nodeE] :=
  have hdeep : nodesDeep (some shadowGraph) =
      [.mk "C" "" "Graph" none
          (some (.mk [some nodeS, some shadowInner, some nodeE]
            [some (Edge.mk "S" "L" ""), some (Edge.mk "L" "E" "")])),
        nodeS, shadowInner, nodeE, shadowOuter] := rfl
  have hOuter : shadowOuter ∈ nodesDeep (some shadowGraph) := by rw [hdeep]; simp
  have hInner : shadowInner ∈ nodesDeep (some shadowGraph) := by rw [hdeep]; simp
  have hS : nodeS ∈ nodesDeep (some shadowGraph) := by rw [hdeep]; simp
  have huniq : ∀ m ∈ nodesDeep (some shadowGraph), m.Key = nodeS.Key → m = nodeS := by
    intro m hm hk
    rw [hdeep] at hm
    simp only [List.mem_cons, List.not_mem_nil, or_false] at hm
    rcases hm with rfl | rfl | rfl | rfl | rfl
    · exact absurd hk (by decide)
    · rfl
    · exact absurd hk (by decide)
    · exact absurd hk (by decide)
    · exact absurd hk (by decide)
  have hnotin : shadowInner ∉ [nodeS, shadowOuter, nodeE] := by
    simp [shadowInner, shadowOuter, nodeS, nodeE]
  have tOuter := flattenGraph_leaf_survives MapOrder.insertion shadowGraph
    [nodeS, shadowOuter, nodeE] [Edge.mk "S" "L" "", Edge.mk "L" "E" ""] rfl shadowOuter
    hOuter rfl
  have tInner := flattenGraph_leaf_survives MapOrder.insertion shadowGraph
    [nodeS, shadowOuter, nodeE] [Edge.mk "S" "L" "", Edge.mk "L" "E" ""] rfl shadowInner
    hInner rfl
  have tS := flattenGraph_leaf_survives MapOrder.insertion shadowGraph
    [nodeS, shadowOuter, nodeE] [Edge.mk "S" "L" "", Edge.mk "L" "E" ""] rfl nodeS hS rfl
  ⟨rfl, rfl, hOuter, rfl, hInner, rfl, hS, rfl,
    tOuter.2.2.2.1.1 (List.mem_cons_of_mem _ (List.mem_cons_self _ _)),
    fun hc => hnotin (tInner.2.2.2.1.2 hc), huniq, tS.2.2.2.2 huniq⟩

end Apihandler
